import Mathlib

/-!
# Machine-bound license keys: a verification development

A shallow embedding of the Go package `license` (files `getMachineSN.go`,
`checkLicense.go`, `dmiDecode.go`) together with theorems about it.

Conventions of the embedding.

* A Go `string` or `[]byte` is a list of bytes, `List UInt8`.
* A run-time panic (slice bounds out of range, index out of range) is an
  explicit outcome: `Except Fault α` where the code also has an `error`
  result, `Option α` where panicking is the only way to fail.
* `math/big` integers are natural numbers.
* Regular expressions are matched byte by byte. Every group of the patterns
  of this package is delimited by ASCII bytes or by the ends of the text, so
  the match and its groups are those of the rune-wise match of `regexp`.
* The hash functions of the libraries are parameters.
* The order in which `range` yields the entries of a map, which Go does not
  specify, is a parameter: a permutation of the entries.
* What the operating system contributes to `getMachineSN` (the current user,
  the text printed by the inventory tool) is a parameter.
-/

namespace GoLicense

/-- A Go string or byte slice: a finite sequence of bytes. -/
abbrev Str := List UInt8

/-- The bytes of an ASCII literal of the source. -/
def ascii (s : String) : Str := s.toList.map (fun c => UInt8.ofNat c.toNat)

/-! ## getMachineSN.go -/

/-- The two ways in which `chaos` can fail to return a string: the Go run time
panics, or the function returns its `error` value. -/
inductive Fault where
  | panic
  | error (msg : String)
  deriving DecidableEq, Repr

/-- The bytes of `s` at the positions `lo ≤ i < hi`. -/
def sub (s : Str) (lo hi : Nat) : Str := (s.drop lo).take (hi - lo)

/-- Slice expression `s[lo:hi]` on a byte slice whose capacity equals its
length: in range iff `lo ≤ hi ≤ len(s)`, otherwise the run time panics.
(`[]byte(str)` may be given spare capacity by the run time; every slice of
`chaos` with an explicit upper bound is on a slice that is also sliced as
`s[lo:]` with a larger `lo`, so whether `chaos` panics does not depend on it.) -/
def slice (s : Str) (lo hi : Nat) : Except Fault Str :=
  if lo ≤ hi ∧ hi ≤ s.length then .ok (sub s lo hi) else .error .panic

/-- Slice expression `s[lo:]`, that is `s[lo:len(s)]`: in range iff
`lo ≤ len(s)`, whatever the capacity of `s`. -/
def sliceFrom (s : Str) (lo : Nat) : Except Fault Str :=
  if lo ≤ s.length then .ok (s.drop lo) else .error .panic

/-- Removal of every occurrence of the one-byte string `old`:
`strings.Replace(s, old, "", -1)`. -/
def removeAll (old : UInt8) (s : Str) : Str := s.filter (fun b => b != old)

/-- The message of the error `chaos` returns. -/
def snFailed : String := "Generate machine's SN failed.\n"

/-- Function `chaos` of `getMachineSN.go`. The fragments are evaluated in source
order, so the first slice expression out of range decides the panic. -/
def chaos (systemUUID cpuID : Str) : Except Fault Str := do
  let cpuID := removeAll 32 cpuID
  let systemUUID := removeAll 45 systemUUID
  let cpuIDByte := cpuID
  let systemUUIDByte := systemUUID
  let c1 ← slice cpuIDByte 0 5
  let c2 ← sliceFrom cpuIDByte 11
  let c3 ← slice cpuIDByte 9 11
  let c4 ← slice cpuIDByte 5 9
  let tmpByteSlice := [c1, c2, c3, c4]
  let u1 ← slice systemUUIDByte 7 15
  let u2 ← slice systemUUIDByte 0 7
  let u3 ← sliceFrom systemUUIDByte 24
  let u4 ← slice systemUUIDByte 15 24
  let tmpByteSlice := tmpByteSlice ++ [u1, u2, u3, u4]
  let tmpByte := tmpByteSlice.flatten
  let t1 ← sliceFrom tmpByte 45
  let t2 ← slice tmpByte 18 22
  let t3 ← slice tmpByte 0 5
  let t4 ← slice tmpByte 43 45
  let t5 ← slice tmpByte 31 38
  let t6 ← slice tmpByte 25 31
  let t7 ← slice tmpByte 38 43
  let tmpByteSlice := tmpByteSlice ++ [t1, t2, t3, t4, t5, t6, t7]
  let sn := tmpByteSlice.flatten
  if sn.length = 80 then
    return tmpByteSlice.flatten
  throw (.error snFailed)

/-! ## checkLicense.go -/

def version : UInt8 := 0x00

def licenseChecksumLen : Nat := 4

/-- The custom base-58 alphabet. -/
def b58Alphabet : Str := ascii "123456789ABCDEFGHJKLMNPQRSTUVWXYZabcdefghijkmnopqrstuvwxyz"

/-- Method `big.Int.SetBytes`: the bytes read as a big-endian unsigned integer. -/
def setBytes (buf : Str) : Nat := buf.foldl (fun x b => x * 256 + b.toNat) 0

/-- The division loop of `base58Encode`, `for x.Cmp(zero) != 0`: each round
replaces `x` by `x / base`, leaves `x % base` in `mod` and appends
`b58Alphabet[mod]`, an index expression that panics when out of range. -/
def divModLoop (x : Nat) (result : Str) : Option Str :=
  if x = 0 then some result
  else
    match b58Alphabet[x % b58Alphabet.length]? with
    | none => none
    | some sym => divModLoop (x / b58Alphabet.length) (result ++ [sym])
termination_by x
decreasing_by
  have hb : b58Alphabet.length = 58 := by decide
  rw [hb]
  omega

/-- The loop of `reverseBytes`: `for i, j := 0, len(data)-1; i < j; i, j = i+1, j-1`,
swapping `data[i]` and `data[j]`. -/
def reverseBytesLoop (data : Str) (i : Nat) (j : Int) : Option Str :=
  if (i : Int) < j then
    match data[j.toNat]?, data[i]? with
    | some dj, some di => reverseBytesLoop ((data.set i dj).set j.toNat di) (i + 1) (j - 1)
    | _, _ => none
  else some data
termination_by (j - i).toNat
decreasing_by omega

/-- Function `reverseBytes`: the slice after the in-place reversal. -/
def reverseBytes (data : Str) : Option Str :=
  reverseBytesLoop data 0 ((data.length : Int) - 1)

/-- The last loop of `base58Encode`, `for b := range input`: with a single
iteration variable `b` ranges over the indices `0, 1, ..., len(input)-1`. -/
def leadingLoop : List Nat → Str → Option Str
  | [], result => some result
  | b :: rest, result =>
    if b = 0x00 then
      match b58Alphabet[0]? with
      | none => none
      | some sym => leadingLoop rest ([sym] ++ result)
    else some result

/-- Function `base58Encode`; `none` stands for a run-time panic. -/
def base58Encode (input : Str) : Option Str := do
  let x := setBytes input
  let result ← divModLoop x []
  let result ← reverseBytes result
  leadingLoop (List.range input.length) result

/-- Function `checksum`: the first four bytes of the double hash; `sha256`
stands for `sha256.Sum256` of the standard library. -/
def checksum (sha256 : Str → Str) (payload : Str) : Str :=
  let firstSHA := sha256 payload
  let secondSHA := sha256 firstSHA
  secondSHA.take licenseChecksumLen

/-- Function `hashPubKey`; `ripemd160` stands for the hasher of
`golang.org/x/crypto/ripemd160`, whose `Write` never returns an error. -/
def hashPubKey (sha256 ripemd160 : Str → Str) (pubKey : Str) : Str :=
  let publicSHA256 := sha256 pubKey
  let publicRIPEMD160 := ripemd160 publicSHA256
  publicRIPEMD160

/-- Method `getLicenseKey`, as a function of the public key of the receiver. -/
def getLicenseKey (sha256 ripemd160 : Str → Str) (publicKey : Str) : Option Str :=
  let pubKeyHash := hashPubKey sha256 ripemd160 publicKey
  let versionedPayload := [version] ++ pubKeyHash
  let checksum := checksum sha256 versionedPayload
  let fullPayload := versionedPayload ++ checksum
  let licenseKey := base58Encode fullPayload
  licenseKey

/-! ## dmiDecode.go -/

/-- A Go map with string keys, as an association list without repeated keys;
the order of the entries is not observable by the program. -/
abbrev StrMap (β : Type) := List (Str × β)

/-- Map assignment `m[k] = v`. -/
def mapSet {β : Type} : StrMap β → Str → β → StrMap β
  | [], k, v => [(k, v)]
  | (k0, v0) :: rest, k, v => if k0 = k then (k, v) :: rest else (k0, v0) :: mapSet rest k v

/-- Map lookup `m[k]`, `none` when the key is absent. -/
def mapGet? {β : Type} : StrMap β → Str → Option β
  | [], _ => none
  | (k0, v0) :: rest, k => if k0 = k then some v0 else mapGet? rest k

/-- Type `DMI`. -/
structure DMI where
  Data : StrMap (StrMap Str)
  Binary : Str

def DMIDecodeBinary : Str := ascii "dmidecode"

/-- Function `newDMI`. -/
def newDMI : DMI := { Data := [], Binary := DMIDecodeBinary }

/-- Puts a byte in front of the first piece of a split. -/
def consHead (b : UInt8) : List Str → List Str
  | [] => [[b]]
  | l :: ls => (b :: l) :: ls

/-- Call `strings.Split(s, "\n")`: the pieces of `s` between the newlines. -/
def splitLines : Str → List Str
  | [] => [[]]
  | b :: s => if b = 10 then [] :: splitLines s else consHead b (splitLines s)

/-- Call `strings.Split(s, "\n\n")`: the separator occurrences are taken
leftmost first and do not overlap. -/
def splitBlocks : Str → List Str
  | [] => [[]]
  | [b] => [[b]]
  | b :: c :: s =>
    if b = 10 ∧ c = 10 then [] :: splitBlocks s else consHead b (splitBlocks (c :: s))

/-- The pieces of a regular expression of the forms this package compiles:
`^`, `$`, a literal byte, `C+` and `(C+)` for a character class `C`. -/
inductive Atom where
  | bos
  | eos
  | lit (b : UInt8)
  | plus (cls : UInt8 → Bool)
  | cap (cls : UInt8 → Bool)

/-- Class `\s` of Go regular expressions: `[\t\n\f\r ]`. -/
def isSpace (b : UInt8) : Bool := b = 9 || b = 10 || b = 12 || b = 13 || b = 32

/-- Class `\d`: `[0-9]`. -/
def isDigit (b : UInt8) : Bool := 48 ≤ b && b ≤ 57

/-- Class `.` without the `s` flag: anything but a newline. -/
def isDot (b : UInt8) : Bool := b != 10

/-- The literal bytes of an ASCII string as pieces of a regular expression. -/
def lits (s : String) : List Atom := (ascii s).map Atom.lit

/-- Match of a regular expression at the head of `s`, with the preference
order of `regexp` (leftmost-first, as a backtracking matcher): a greedy `+`
tries the longest run first. The result lists the captured groups;
`atStart` tells whether the head of `s` is the start of the text. -/
def matchHere : List Atom → Bool → Str → Option (List Str)
  | [], _, _ => some []
  | .bos :: re, atStart, s => if atStart then matchHere re atStart s else none
  | .eos :: re, atStart, s => if s = [] then matchHere re atStart s else none
  | .lit b :: re, _, s =>
    match s with
    | [] => none
    | c :: s => if c = b then matchHere re false s else none
  | .plus cls :: re, _, s =>
    (List.range (s.takeWhile cls).length).reverse.findSome? fun n =>
      matchHere re false (s.drop (n + 1))
  | .cap cls :: re, _, s =>
    (List.range (s.takeWhile cls).length).reverse.findSome? fun n =>
      (matchHere re false (s.drop (n + 1))).map fun caps => s.take (n + 1) :: caps

/-- Method `(*Regexp).FindStringSubmatch`: the leftmost match. The result is
`none` for the empty slice of the source (no match) and otherwise lists the
groups, so that entry `k` of the result is entry `k + 1` of the slice of the
source (whose entry 0, the whole match, is never read). -/
def findStringSubmatch (re : List Atom) (s : Str) : Option (List Str) :=
  (List.range (s.length + 1)).findSome? fun i => matchHere re (i == 0) (s.drop i)

/-- Pattern `^Handle\s+(.+),\s+DMI\s+type\s+(\d+),\s+(\d+)\s+bytes$`. -/
def handleRegex : List Atom :=
  [.bos] ++ lits "Handle" ++ [.plus isSpace, .cap isDot] ++ lits "," ++ [.plus isSpace] ++
    lits "DMI" ++ [.plus isSpace] ++ lits "type" ++ [.plus isSpace, .cap isDigit] ++ lits "," ++
    [.plus isSpace, .cap isDigit, .plus isSpace] ++ lits "bytes" ++ [.eos]

/-- Pattern `^\t\t(.+)$`. -/
def inBlockRegex : List Atom := [.bos, .lit 9, .lit 9, .cap isDot, .eos]

/-- Pattern `\t(.+):\s+(.+)$`. -/
def recordRegex : List Atom := [.lit 9, .cap isDot] ++ lits ":" ++ [.plus isSpace, .cap isDot, .eos]

/-- Pattern `\t(.+):$`. -/
def recordRegex2 : List Atom := [.lit 9, .cap isDot] ++ lits ":" ++ [.eos]

/-- The variables of the loop over the lines of a record: the map
`d.Data[dmiHandle]`, `inBlockElement` and `inBlockList`. -/
structure LineState where
  fields : StrMap Str
  inBlockElement : Str
  inBlockList : Str

/-- The part of the loop body below the `\t\t` block test. -/
def scanLine (st : LineState) (line : Str) : LineState :=
  match findStringSubmatch recordRegex line with
  | some recordData =>
    { st with fields := mapSet st.fields (recordData.getD 0 []) (recordData.getD 1 []) }
  | none =>
    match findStringSubmatch recordRegex2 line with
    | some recordData2 => { st with inBlockElement := recordData2.getD 0 [] }
    | none => st

/-- One round of the loop `for i := 2; i < len(recordElements); i++`. -/
def stepLine (st : LineState) (line : Str) : LineState :=
  if st.inBlockElement ≠ [] then
    match findStringSubmatch inBlockRegex line with
    | some inBlockData =>
      let inBlockList :=
        if st.inBlockList.length = 0 then inBlockData.getD 0 []
        else st.inBlockList ++ ascii "\t\t" ++ inBlockData.getD 0 []
      { fields := mapSet st.fields st.inBlockElement inBlockList,
        inBlockElement := st.inBlockElement,
        inBlockList := inBlockList }
    | none => scanLine { st with inBlockElement := [] } line
  else scanLine st line

/-- The body of the loop `for _, record := range splitOutput`, as a function
from the map `d.Data` before the round to the map after it. The record map is
created, filled by the loop over the lines and stored under the handle. -/
def parseRecord (data : StrMap (StrMap Str)) (record : Str) : StrMap (StrMap Str) :=
  let recordElements := splitLines record
  if recordElements.length < 3 then data
  else
    match findStringSubmatch handleRegex (recordElements.getD 0 []) with
    | none => data
    | some handleData =>
      let dmiHandle := handleData.getD 0 []
      let fields : StrMap Str := []
      let fields := mapSet fields (ascii "DMIType") (handleData.getD 1 [])
      let fields := mapSet fields (ascii "DMISize") (handleData.getD 2 [])
      let fields := mapSet fields (ascii "DMIName") (recordElements.getD 1 [])
      let st := (recordElements.drop 2).foldl stepLine
        { fields := fields, inBlockElement := [], inBlockList := [] }
      mapSet data dmiHandle st.fields

/-- The message of the error `parseDmidecode` returns. -/
def parseFailed : String := "Unable to parse 'dmidecode' output\n"

/-- Method `parseDmidecode`: the receiver after the call and the returned
error, `none` for `nil`. -/
def parseDmidecode (d : DMI) (output : Str) : DMI × Option String :=
  let splitOutput := splitBlocks output
  let data := splitOutput.foldl parseRecord d.Data
  let d := { d with Data := data }
  if d.Data.length = 0 then (d, some parseFailed) else (d, none)

/-- Index expression `m[k]` on a `map[string]string`: the value stored under
`k`, and the zero value `""` when the key is absent. -/
def mapIndex (m : StrMap Str) (k : Str) : Str := (mapGet? m k).getD []

/-- The message of the error `genericSearchBy` returns. -/
def dataEmpty : String := "DMI data is empty; make sure to .run() first"

/-- The loop `for _, v := range d.Data` of `genericSearchBy`, over the entries
of the map in the order in which `range` yields them. -/
def searchLoop : List (Str × StrMap Str) → Str → Str → Option (StrMap Str)
  | [], _, _ => none
  | (_, v) :: rest, param, value =>
    if mapIndex v param = value then some v else searchLoop rest param value

/-- Method `genericSearchBy`. The order in which `range` yields the entries of a
map is not specified by Go: `order` is that sequence, a permutation of the
entries of `d.Data`. -/
def genericSearchBy (d : DMI) (order : List (Str × StrMap Str)) (param value : Str) :
    Except String (StrMap Str) :=
  if d.Data.length = 0 then .error dataEmpty
  else
    match searchLoop order param value with
    | some v => .ok v
    | none => .ok []

/-- Function `strconv.Itoa`: the decimal string of an integer. -/
def itoa (i : Int) : Str := ascii (toString i)

/-- Method `searchByName`. -/
def searchByName (d : DMI) (order : List (Str × StrMap Str)) (name : Str) :
    Except String (StrMap Str) :=
  genericSearchBy d order (ascii "DMIName") name

/-- Method `searchByType`. -/
def searchByType (d : DMI) (order : List (Str × StrMap Str)) (id : Int) :
    Except String (StrMap Str) :=
  genericSearchBy d order (ascii "DMIType") (itoa id)

/-- Method `run`, given what the two external steps `findBin` and
`execDmidecode` produce: an error, or the text printed by the tool. -/
def run (d : DMI) (tool : Except String Str) : DMI × Option String :=
  match tool with
  | .error err => (d, some err)
  | .ok output => parseDmidecode d output

/-! ## getMachineSN.go, continued -/

/-- The message of the errors `getMachineSN` returns when `run` or a search
fails. -/
def unableInfo : String := "Unable to get machine's information.\n"

/-- The message of the error `getMachineSN` returns when an identifier is
empty. -/
def infoFailed : String := "Get machine's information failed.\n"

/-- The loops `for k, v := range record` of `getMachineSN`, which keep the value
of the one key `key`; the keys of a map are distinct, so the order of the
entries does not matter. -/
def fieldOf (record : StrMap Str) (key : Str) : Str :=
  record.foldl (fun found kv => if kv.1 = key then kv.2 else found) []

/-- Function `getMachineSN`. The external steps are parameters: `root` is the
error of `isRoot`, `none` for the root user; `tool` is what `findBin` and
`execDmidecode` produce; `order1` and `order4` give the order in which the
`range` of the first and of the second search yields the entries of `d.Data`. -/
def getMachineSN (root : Option String) (tool : Except String Str)
    (order1 order4 : StrMap (StrMap Str) → List (Str × StrMap Str)) : Except Fault Str :=
  match root with
  | some err => .error (.error err)
  | none =>
    match run newDMI tool with
    | (_, some _) => .error (.error unableInfo)
    | (dmi, none) =>
      match searchByType dmi (order1 dmi.Data) 1 with
      | .error _ => .error (.error unableInfo)
      | .ok systemByNameData =>
        let systemUUID := fieldOf systemByNameData (ascii "UUID")
        match searchByType dmi (order4 dmi.Data) 4 with
        | .error _ => .error (.error unableInfo)
        | .ok cpuByNameData =>
          let cpuID := fieldOf cpuByNameData (ascii "ID")
          if systemUUID ≠ [] ∧ cpuID ≠ [] then chaos systemUUID cpuID
          else .error (.error infoFailed)

/-! ## Notions used to state the properties -/

/-- The symbol that stands for the base-58 digit `d`. -/
def b58Sym (d : Nat) : UInt8 := b58Alphabet.getD d 0

/-- Digit value of a symbol: its index in the alphabet (58 when absent). -/
def b58Index (sym : UInt8) : Nat := b58Alphabet.indexOf sym

/-- A symbol string read, most significant digit first, as a base-58 numeral. -/
def readBase58 (digits : Str) : Nat := digits.foldl (fun v sym => v * 58 + b58Index sym) 0

/-- A stand-in for SHA-256 with its output length, 32 bytes; it instantiates
the statements made for an arbitrary hash function. -/
def padHash32 (m : Str) : Str := (m ++ List.replicate 32 0).take 32

/-- A stand-in for RIPEMD-160 with its output length, 20 bytes. -/
def padHash20 (m : Str) : Str := (m ++ List.replicate 20 0).take 20

/-- A byte of hexadecimal text: `0-9`, `a-f` or `A-F`. -/
def isHexDigit (b : UInt8) : Bool :=
  (48 ≤ b && b ≤ 57) || (97 ≤ b && b ≤ 102) || (65 ≤ b && b ≤ 70)

/-- A block that `parseDmidecode` turns into a record: at least three lines,
the first of which matches the header pattern. -/
def isRecordBlock (record : Str) : Bool :=
  decide (3 ≤ (splitLines record).length) &&
    (findStringSubmatch handleRegex ((splitLines record).getD 0 [])).isSome

/-- Call `strings.Join(blocks, "\n\n")`: the text made of the blocks separated
by blank lines. -/
def joinBlocks : List Str → Str
  | [] => []
  | [b] => b
  | b :: rest => b ++ [10, 10] ++ joinBlocks rest

/-- Whether the text contains a blank-line separator, two newlines in a row. -/
def hasBlankLine : Str → Bool
  | [] => false
  | [_] => false
  | b :: c :: s => (b == 10 && c == 10) || hasBlankLine (c :: s)

/-- A block that a blank-line separator delimits unambiguously: it contains
no separator and does not end with a newline. -/
def wellDelimited (b : Str) : Bool := !hasBlankLine b && !(b.getLast? == some 10)

/-- Call `strings.Join(vals, "\t\t")`: the values joined by two tabs. -/
def joinTabs : List Str → Str
  | [] => []
  | [v] => v
  | v :: rest => v ++ [9, 9] ++ joinTabs rest

/-- A line that the loop body treats as an array header: it does not match the
pattern of a plain field and matches the pattern `\t(.+):$`. -/
def isArrayHeader (line : Str) : Bool :=
  (findStringSubmatch recordRegex line).isNone && (findStringSubmatch recordRegex2 line).isSome

/-- The key under which the loop body stores the value of a plain field line,
`none` when the line does not match the pattern `\t(.+):\s+(.+)$`. -/
def fieldKey? (line : Str) : Option Str :=
  (findStringSubmatch recordRegex line).map fun recordData => recordData.getD 0 []

/-- The handle under which `parseDmidecode` stores the record of a block,
`none` when the block is skipped. -/
def blockHandle? (record : Str) : Option Str :=
  if (splitLines record).length < 3 then none
  else (findStringSubmatch handleRegex ((splitLines record).getD 0 [])).map
    fun handleData => handleData.getD 0 []

/-- The buffer `tmpByte` of `chaos`, the first eight fragments joined, written
with ranges that are not checked. -/
def chaosBuffer (systemUUID cpuID : Str) : Str :=
  let c := removeAll 32 cpuID
  let u := removeAll 45 systemUUID
  sub c 0 5 ++ c.drop 11 ++ sub c 9 11 ++ sub c 5 9 ++
    sub u 7 15 ++ sub u 0 7 ++ u.drop 24 ++ sub u 15 24

/-- The fifteen fragments of `chaos` joined, written with ranges that are not
checked: the string whose length `chaos` compares with 80. -/
def chaosConcat (systemUUID cpuID : Str) : Str :=
  let B := chaosBuffer systemUUID cpuID
  B ++ B.drop 45 ++ sub B 18 22 ++ sub B 0 5 ++ sub B 43 45 ++
    sub B 31 38 ++ sub B 25 31 ++ sub B 38 43

/-- The number of leading zero bytes of a byte sequence. -/
def leadingZeros (input : Str) : Nat := (input.takeWhile (fun b => b == 0)).length

/-- The base-58 digits of a number, most significant first, as symbols of the
alphabet; no digit for 0. -/
def base58Digits (x : Nat) : Str := ((Nat.digits 58 x).map b58Sym).reverse

/-- The conventional Base58 encoding, after the words of the claim: one leading
`1` per leading zero byte of the input, followed by the base-58 digits of its
integer value. -/
def conventionalBase58 (input : Str) : Str :=
  List.replicate (leadingZeros input) 49 ++ base58Digits (setBytes input)

/-- The key that an array header line makes the active array key, `none` when
the line is not treated as an array header. -/
def arrayKey? (line : Str) : Option Str :=
  match findStringSubmatch recordRegex line with
  | some _ => none
  | none => (findStringSubmatch recordRegex2 line).map fun recordData2 => recordData2.getD 0 []

/-- The three keys under which `parseDmidecode` stores what it reads from the
first two lines of a block. -/
def headerKeys : List Str := [ascii "DMIName", ascii "DMIType", ascii "DMISize"]

/-! ## Theorems: the fingerprint obfuscator -/

theorem slice_eq_ok {s r : Str} {lo hi : Nat} :
    slice s lo hi = .ok r ↔ (lo ≤ hi ∧ hi ≤ s.length) ∧ r = sub s lo hi := by
  unfold slice
  split_ifs with h
  · simp [h, eq_comm]
  · simp [h]

theorem sliceFrom_eq_ok {s r : Str} {lo : Nat} :
    sliceFrom s lo = .ok r ↔ lo ≤ s.length ∧ r = s.drop lo := by
  unfold sliceFrom
  split_ifs with h
  · simp [h, eq_comm]
  · simp [h]

theorem bind_eq_ok {α β : Type} {x : Except Fault α} {f : α → Except Fault β} {r : β} :
    (x >>= f) = .ok r ↔ ∃ a, x = .ok a ∧ f a = .ok r := by
  cases x <;> simp [bind, Except.bind]

/-- C1. Whenever `chaos` returns a string `sn`, that string has 80 bytes and is
`B ++ B[45:] ++ B[18:22] ++ B[0:5] ++ B[43:45] ++ B[31:38] ++ B[25:31] ++ B[38:43]`
where `B = c[0:5] ++ c[11:] ++ c[9:11] ++ c[5:9] ++ u[7:15] ++ u[0:7] ++ u[24:] ++ u[15:24]`,
`c` being `cpuID` without its spaces and `u` being `systemUUID` without its hyphens. -/
theorem chaos_ok_form (systemUUID cpuID sn : Str) (h : chaos systemUUID cpuID = .ok sn) :
    sn.length = 80 ∧
    ∀ c u B, c = removeAll 32 cpuID → u = removeAll 45 systemUUID →
      B = sub c 0 5 ++ c.drop 11 ++ sub c 9 11 ++ sub c 5 9 ++
          sub u 7 15 ++ sub u 0 7 ++ u.drop 24 ++ sub u 15 24 →
      sn = B ++ B.drop 45 ++ sub B 18 22 ++ sub B 0 5 ++ sub B 43 45 ++
          sub B 31 38 ++ sub B 25 31 ++ sub B 38 43 := by
  unfold chaos at h
  simp only [bind_eq_ok, slice_eq_ok, sliceFrom_eq_ok] at h
  obtain ⟨c1, ⟨-, rfl⟩, c2, ⟨-, rfl⟩, c3, ⟨-, rfl⟩, c4, ⟨-, rfl⟩, u1, ⟨-, rfl⟩, u2, ⟨-, rfl⟩,
    u3, ⟨-, rfl⟩, u4, ⟨-, rfl⟩, t1, ⟨-, rfl⟩, t2, ⟨-, rfl⟩, t3, ⟨-, rfl⟩, t4, ⟨-, rfl⟩,
    t5, ⟨-, rfl⟩, t6, ⟨-, rfl⟩, t7, ⟨-, rfl⟩, h⟩ := h
  split_ifs at h with hlen
  · simp only [pure, Except.pure, Except.ok.injEq] at h
    subst h
    refine ⟨hlen, ?_⟩
    rintro c u B rfl rfl rfl
    simp [List.flatten, List.append_assoc]
  · simp [bind, Except.bind, pure, Except.pure, throw, throwThe, MonadExceptOf.throw] at h

/-- C1, the instance named in the claim: on the UUID
`12345678-1234-1234-1234-123456789012` and the processor ID `ABCDEFGHIJKLMNOP`
the function returns the 80 bytes below, of the stated form. -/
theorem chaos_ok_form_witness :
    chaos (ascii "12345678-1234-1234-1234-123456789012") (ascii "ABCDEFGHIJKLMNOP") =
      .ok (ascii "ABCDELMNOPJKFGHI812341231234567567890124123412342342341ABCDE41567890123456724123") ∧
    (ascii "ABCDELMNOPJKFGHI812341231234567567890124123412342342341ABCDE41567890123456724123").length = 80 ∧
    ∀ c u B, c = removeAll 32 (ascii "ABCDEFGHIJKLMNOP") →
      u = removeAll 45 (ascii "12345678-1234-1234-1234-123456789012") →
      B = sub c 0 5 ++ c.drop 11 ++ sub c 9 11 ++ sub c 5 9 ++
          sub u 7 15 ++ sub u 0 7 ++ u.drop 24 ++ sub u 15 24 →
      ascii "ABCDELMNOPJKFGHI812341231234567567890124123412342342341ABCDE41567890123456724123" =
        B ++ B.drop 45 ++ sub B 18 22 ++ sub B 0 5 ++ sub B 43 45 ++
          sub B 31 38 ++ sub B 25 31 ++ sub B 38 43 :=
  ⟨rfl, chaos_ok_form _ _ _ rfl⟩

/-- C5, evaluated at a failing input: for the identifiers `Not Settable` (a
value the inventory tool prints for an unset UUID) and `54 06 05 00 FF FB EB BF`,
both non-empty, `chaos` neither returns a string nor returns its error: a slice
expression on the 12-byte UUID is out of range and the run time panics. -/
theorem chaos_panics_on_short_uuid :
    chaos (ascii "Not Settable") (ascii "54 06 05 00 FF FB EB BF") = .error .panic := by
  rfl

/-- C6, evaluated at a failing input: on the identifiers of the end-to-end
scenario `chaos` succeeds with an 80-byte string that is not hexadecimal text. -/
theorem chaos_returns_non_hex :
    ∃ sn, chaos (ascii "12345678-1234-1234-1234-123456789012") (ascii "ABCDEFGHIJKLMNOP") = .ok sn ∧
      sn.length = 80 ∧ sn.all isHexDigit = false :=
  ⟨_, rfl, by decide, by decide⟩

theorem slice_of_le (s : Str) (lo hi : Nat) (h : lo ≤ hi ∧ hi ≤ s.length) :
    slice s lo hi = .ok (sub s lo hi) := by
  unfold slice
  rw [if_pos h]

theorem sliceFrom_of_le (s : Str) (lo : Nat) (h : lo ≤ s.length) :
    sliceFrom s lo = .ok (s.drop lo) := by
  unfold sliceFrom
  rw [if_pos h]

theorem length_sub (s : Str) (lo hi : Nat) (h : hi ≤ s.length) :
    (sub s lo hi).length = hi - lo := by
  unfold sub
  rw [List.length_take, List.length_drop]
  omega

theorem length_chaosBuffer (systemUUID cpuID : Str)
    (hc : 11 ≤ (removeAll 32 cpuID).length) (hu : 24 ≤ (removeAll 45 systemUUID).length) :
    (chaosBuffer systemUUID cpuID).length =
      (removeAll 32 cpuID).length + (removeAll 45 systemUUID).length := by
  unfold chaosBuffer
  simp only [List.length_append, List.length_drop]
  rw [length_sub _ _ _ (by omega), length_sub _ _ _ (by omega), length_sub _ _ _ (by omega),
    length_sub _ _ _ (by omega), length_sub _ _ _ (by omega), length_sub _ _ _ (by omega)]
  omega

theorem length_chaosConcat (systemUUID cpuID : Str)
    (hc : 11 ≤ (removeAll 32 cpuID).length) (hu : 24 ≤ (removeAll 45 systemUUID).length)
    (hcu : 45 ≤ (removeAll 32 cpuID).length + (removeAll 45 systemUUID).length) :
    (chaosConcat systemUUID cpuID).length =
      2 * ((removeAll 32 cpuID).length + (removeAll 45 systemUUID).length) - 16 := by
  have hB := length_chaosBuffer systemUUID cpuID hc hu
  unfold chaosConcat
  simp only [List.length_append, List.length_drop]
  rw [length_sub _ _ _ (by omega), length_sub _ _ _ (by omega), length_sub _ _ _ (by omega),
    length_sub _ _ _ (by omega), length_sub _ _ _ (by omega), length_sub _ _ _ (by omega)]
  omega

/-- When no slice expression is out of range, `chaos` is the length test on the
fifteen fragments joined. -/
theorem chaos_of_in_range (systemUUID cpuID : Str)
    (hc : 11 ≤ (removeAll 32 cpuID).length) (hu : 24 ≤ (removeAll 45 systemUUID).length)
    (hcu : 45 ≤ (removeAll 32 cpuID).length + (removeAll 45 systemUUID).length) :
    chaos systemUUID cpuID =
      if (chaosConcat systemUUID cpuID).length = 80 then .ok (chaosConcat systemUUID cpuID)
      else .error (.error snFailed) := by
  have hB := length_chaosBuffer systemUUID cpuID hc hu
  have hflat : ([sub (removeAll 32 cpuID) 0 5, (removeAll 32 cpuID).drop 11,
      sub (removeAll 32 cpuID) 9 11, sub (removeAll 32 cpuID) 5 9] ++
      [sub (removeAll 45 systemUUID) 7 15, sub (removeAll 45 systemUUID) 0 7,
        (removeAll 45 systemUUID).drop 24, sub (removeAll 45 systemUUID) 15 24]).flatten =
      chaosBuffer systemUUID cpuID := by
    simp [chaosBuffer, List.flatten, List.append_assoc]
  unfold chaos
  simp only [slice_of_le (removeAll 32 cpuID) 0 5 (by omega),
    sliceFrom_of_le (removeAll 32 cpuID) 11 (by omega),
    slice_of_le (removeAll 32 cpuID) 9 11 (by omega),
    slice_of_le (removeAll 32 cpuID) 5 9 (by omega),
    slice_of_le (removeAll 45 systemUUID) 7 15 (by omega),
    slice_of_le (removeAll 45 systemUUID) 0 7 (by omega),
    sliceFrom_of_le (removeAll 45 systemUUID) 24 (by omega),
    slice_of_le (removeAll 45 systemUUID) 15 24 (by omega),
    bind, Except.bind, hflat,
    sliceFrom_of_le (chaosBuffer systemUUID cpuID) 45 (by omega),
    slice_of_le (chaosBuffer systemUUID cpuID) 18 22 (by omega),
    slice_of_le (chaosBuffer systemUUID cpuID) 0 5 (by omega),
    slice_of_le (chaosBuffer systemUUID cpuID) 43 45 (by omega),
    slice_of_le (chaosBuffer systemUUID cpuID) 31 38 (by omega),
    slice_of_le (chaosBuffer systemUUID cpuID) 25 31 (by omega),
    slice_of_le (chaosBuffer systemUUID cpuID) 38 43 (by omega)]
  have hcat : ([sub (removeAll 32 cpuID) 0 5, (removeAll 32 cpuID).drop 11,
      sub (removeAll 32 cpuID) 9 11, sub (removeAll 32 cpuID) 5 9] ++
      [sub (removeAll 45 systemUUID) 7 15, sub (removeAll 45 systemUUID) 0 7,
        (removeAll 45 systemUUID).drop 24, sub (removeAll 45 systemUUID) 15 24] ++
      [(chaosBuffer systemUUID cpuID).drop 45, sub (chaosBuffer systemUUID cpuID) 18 22,
        sub (chaosBuffer systemUUID cpuID) 0 5, sub (chaosBuffer systemUUID cpuID) 43 45,
        sub (chaosBuffer systemUUID cpuID) 31 38, sub (chaosBuffer systemUUID cpuID) 25 31,
        sub (chaosBuffer systemUUID cpuID) 38 43]).flatten = chaosConcat systemUUID cpuID := by
    rw [List.flatten_append, hflat]
    simp [chaosConcat, List.flatten, List.append_assoc]
  rw [hcat]
  split_ifs <;> rfl

/-- C17. Let `c` and `u` be the lengths of `cpuID` without its spaces and of
`systemUUID` without its hyphens. When `c ≥ 11`, `u ≥ 24` and `c + u ≥ 45`, no
slice expression of `chaos` is out of range (it does not panic), the fifteen
fragments joined, whose length `chaos` compares with 80, have length
`2 * (c + u) - 16`, and `chaos` returns them exactly when `c + u = 48`; for
every other such `c`, `u` it returns its error. -/
theorem chaos_in_range (systemUUID cpuID : Str)
    (hc : 11 ≤ (removeAll 32 cpuID).length) (hu : 24 ≤ (removeAll 45 systemUUID).length)
    (hcu : 45 ≤ (removeAll 32 cpuID).length + (removeAll 45 systemUUID).length) :
    chaos systemUUID cpuID =
      (if (chaosConcat systemUUID cpuID).length = 80 then .ok (chaosConcat systemUUID cpuID)
        else .error (.error snFailed)) ∧
    chaos systemUUID cpuID ≠ .error .panic ∧
    (chaosConcat systemUUID cpuID).length =
      2 * ((removeAll 32 cpuID).length + (removeAll 45 systemUUID).length) - 16 ∧
    (chaos systemUUID cpuID = .ok (chaosConcat systemUUID cpuID) ↔
      (removeAll 32 cpuID).length + (removeAll 45 systemUUID).length = 48) ∧
    (chaos systemUUID cpuID = .error (.error snFailed) ↔
      (removeAll 32 cpuID).length + (removeAll 45 systemUUID).length ≠ 48) ∧
    ((∃ sn, chaos systemUUID cpuID = .ok sn) ↔
      (removeAll 32 cpuID).length + (removeAll 45 systemUUID).length = 48) := by
  have hch := chaos_of_in_range systemUUID cpuID hc hu hcu
  have hlen := length_chaosConcat systemUUID cpuID hc hu hcu
  refine ⟨hch, ?_⟩
  rw [hch]
  by_cases h48 : (removeAll 32 cpuID).length + (removeAll 45 systemUUID).length = 48
  · have h80 : (chaosConcat systemUUID cpuID).length = 80 := by omega
    refine ⟨?_, hlen, ?_, ?_, ?_⟩ <;> simp [h80, h48]
  · have h80 : ¬ (chaosConcat systemUUID cpuID).length = 80 := by omega
    refine ⟨?_, hlen, ?_, ?_, ?_⟩ <;> simp [h80, h48]

/-- C17, two instances: a 16-character processor ID with a 32-character UUID,
on which `chaos` succeeds, and the same UUID with a 15-character processor ID,
on which no slice is out of range and `chaos` returns its error. -/
theorem chaos_in_range_witness :
    (11 ≤ (removeAll 32 (ascii "54 06 05 00 FF FB EB BF")).length ∧
      24 ≤ (removeAll 45 (ascii "4C4C4544-0042-3510-8054-B4C04F4B4432")).length ∧
      chaos (ascii "4C4C4544-0042-3510-8054-B4C04F4B4432") (ascii "54 06 05 00 FF FB EB BF") =
        .ok (chaosConcat (ascii "4C4C4544-0042-3510-8054-B4C04F4B4432")
          (ascii "54 06 05 00 FF FB EB BF"))) ∧
    (11 ≤ (removeAll 32 (ascii "54 06 05 00 FF FB EB B")).length ∧
      chaos (ascii "4C4C4544-0042-3510-8054-B4C04F4B4432") (ascii "54 06 05 00 FF FB EB B") =
        .error (.error snFailed)) :=
  ⟨⟨by decide, by decide,
      (chaos_in_range (ascii "4C4C4544-0042-3510-8054-B4C04F4B4432")
        (ascii "54 06 05 00 FF FB EB BF") (by decide) (by decide) (by decide)).2.2.2.1.mpr
        (by decide)⟩,
    ⟨by decide,
      (chaos_in_range (ascii "4C4C4544-0042-3510-8054-B4C04F4B4432")
        (ascii "54 06 05 00 FF FB EB B") (by decide) (by decide) (by decide)).2.2.2.2.1.mpr
        (by decide)⟩⟩

/-- C14, amended. Whenever `chaos` returns a string, the intermediate buffer,
the first eight fragments joined, has the length of the space-stripped `cpuID`
plus the hyphen-stripped `systemUUID`, and that length is 48; the returned
string is the fifteen fragments joined, which start with the buffer. -/
theorem chaos_ok_buffer_length (systemUUID cpuID sn : Str)
    (h : chaos systemUUID cpuID = .ok sn) :
    (chaosBuffer systemUUID cpuID).length =
      (removeAll 32 cpuID).length + (removeAll 45 systemUUID).length ∧
    (chaosBuffer systemUUID cpuID).length = 48 ∧
    sn = chaosConcat systemUUID cpuID := by
  have h0 := h
  unfold chaos at h0
  simp only [bind_eq_ok, slice_eq_ok, sliceFrom_eq_ok] at h0
  obtain ⟨c1, ⟨-, rfl⟩, c2, ⟨hc, rfl⟩, c3, ⟨-, rfl⟩, c4, ⟨-, rfl⟩, u1, ⟨-, rfl⟩, u2, ⟨-, rfl⟩,
    u3, ⟨hu, rfl⟩, u4, ⟨-, rfl⟩, t1, ⟨ht, rfl⟩, -⟩ := h0
  have hB := length_chaosBuffer systemUUID cpuID hc hu
  have hflat : ([sub (removeAll 32 cpuID) 0 5, (removeAll 32 cpuID).drop 11,
      sub (removeAll 32 cpuID) 9 11, sub (removeAll 32 cpuID) 5 9] ++
      [sub (removeAll 45 systemUUID) 7 15, sub (removeAll 45 systemUUID) 0 7,
        (removeAll 45 systemUUID).drop 24, sub (removeAll 45 systemUUID) 15 24]).flatten =
      chaosBuffer systemUUID cpuID := by
    simp [chaosBuffer, List.flatten, List.append_assoc]
  rw [hflat] at ht
  have hcu : 45 ≤ (removeAll 32 cpuID).length + (removeAll 45 systemUUID).length := by omega
  have hch := chaos_of_in_range systemUUID cpuID hc hu hcu
  have hlen := length_chaosConcat systemUUID cpuID hc hu hcu
  rw [hch] at h
  split_ifs at h with h80
  have hsn : chaosConcat systemUUID cpuID = sn := by simpa using h
  have h48 : (chaosBuffer systemUUID cpuID).length = 48 := by omega
  exact ⟨hB, h48, hsn.symm⟩

theorem chaos_ok_buffer_length_witness :
    chaos (ascii "4C4C4544-0042-3510-8054-B4C04F4B4432") (ascii "54 06 05 00 FF FB EB BF") =
      .ok (ascii "54060BEBBFFF500F400423514C4C4544F4B443208054B4C04C00423540604B4F4B443C4C45420805") ∧
    (chaosBuffer (ascii "4C4C4544-0042-3510-8054-B4C04F4B4432")
      (ascii "54 06 05 00 FF FB EB BF")).length = 48 :=
  ⟨rfl, (chaos_ok_buffer_length (ascii "4C4C4544-0042-3510-8054-B4C04F4B4432")
    (ascii "54 06 05 00 FF FB EB BF")
    (ascii "54060BEBBFFF500F400423514C4C4544F4B443208054B4C04C00423540604B4F4B443C4C45420805")
    rfl).2.1⟩

/-- C14 fails as stated: on the identifiers of the end-to-end scenario `chaos`
succeeds and the intermediate buffer is not 45 bytes long (it has 48 bytes). -/
theorem chaos_ok_buffer_not_45 :
    ∃ sn, chaos (ascii "12345678-1234-1234-1234-123456789012") (ascii "ABCDEFGHIJKLMNOP") = .ok sn ∧
      (chaosBuffer (ascii "12345678-1234-1234-1234-123456789012")
        (ascii "ABCDEFGHIJKLMNOP")).length ≠ 45 :=
  ⟨_, rfl, by decide⟩

theorem removeAll_of_not_mem (old : UInt8) (s : Str) (h : ∀ b ∈ s, b ≠ old) :
    removeAll old s = s := by
  unfold removeAll
  rw [List.filter_eq_self]
  intro b hb
  simpa using h b hb

theorem sub_append_drop (s : Str) (lo hi : Nat) (h : lo ≤ hi) :
    sub s lo hi ++ s.drop hi = s.drop lo := by
  unfold sub
  have : s.drop hi = (s.drop lo).drop (hi - lo) := by
    rw [List.drop_drop]
    congr 1
    omega
  rw [this, List.take_append_drop]

/-- The processor ID is made of the four fragments `chaos` takes from it. -/
theorem cpuID_of_fragments (c : Str) :
    c = sub c 0 5 ++ (sub c 5 9 ++ (sub c 9 11 ++ c.drop 11)) := by
  rw [sub_append_drop c 9 11 (by omega), sub_append_drop c 5 9 (by omega),
    sub_append_drop c 0 5 (by omega), List.drop_zero]

/-- The UUID is made of the four fragments `chaos` takes from it. -/
theorem systemUUID_of_fragments (u : Str) :
    u = sub u 0 7 ++ (sub u 7 15 ++ (sub u 15 24 ++ u.drop 24)) := by
  rw [sub_append_drop u 15 24 (by omega), sub_append_drop u 7 15 (by omega),
    sub_append_drop u 0 7 (by omega), List.drop_zero]

/-- The eight fragments of the buffer determine the two identifiers, once the
lengths are known. -/
theorem chaosBuffer_injective (u1 c1 u2 c2 : Str)
    (hc1 : ∀ b ∈ c1, b ≠ 32) (hu1 : ∀ b ∈ u1, b ≠ 45)
    (hc2 : ∀ b ∈ c2, b ≠ 32) (hu2 : ∀ b ∈ u2, b ≠ 45)
    (hc : c1.length = c2.length) (hc11 : 11 ≤ c1.length)
    (hu : u1.length = u2.length) (hu24 : 24 ≤ u1.length)
    (h : chaosBuffer u1 c1 = chaosBuffer u2 c2) : u1 = u2 ∧ c1 = c2 := by
  unfold chaosBuffer at h
  simp only [removeAll_of_not_mem 32 c1 hc1, removeAll_of_not_mem 45 u1 hu1,
    removeAll_of_not_mem 32 c2 hc2, removeAll_of_not_mem 45 u2 hu2] at h
  obtain ⟨h, e8⟩ := List.append_inj' h
    (by rw [length_sub _ _ _ (by omega), length_sub _ _ _ (by omega)])
  obtain ⟨h, e7⟩ := List.append_inj' h (by rw [List.length_drop, List.length_drop, hu])
  obtain ⟨h, e6⟩ := List.append_inj' h
    (by rw [length_sub _ _ _ (by omega), length_sub _ _ _ (by omega)])
  obtain ⟨h, e5⟩ := List.append_inj' h
    (by rw [length_sub _ _ _ (by omega), length_sub _ _ _ (by omega)])
  obtain ⟨h, e4⟩ := List.append_inj' h
    (by rw [length_sub _ _ _ (by omega), length_sub _ _ _ (by omega)])
  obtain ⟨h, e3⟩ := List.append_inj' h
    (by rw [length_sub _ _ _ (by omega), length_sub _ _ _ (by omega)])
  obtain ⟨e1, e2⟩ := List.append_inj' h (by rw [List.length_drop, List.length_drop, hc])
  constructor
  · rw [systemUUID_of_fragments u1, systemUUID_of_fragments u2, e5, e6, e7, e8]
  · rw [cpuID_of_fragments c1, cpuID_of_fragments c2, e1, e2, e3, e4]

/-- C18. On identifiers without spaces and hyphens, of equal lengths with
`len(cpuID) ≥ 11`, `len(systemUUID) ≥ 24` and `len(cpuID) + len(systemUUID) = 48`,
`chaos` is injective: equal results come from equal identifiers, so identifiers
that differ, for instance in one character, give different fingerprints. -/
theorem chaos_injective (u1 c1 u2 c2 : Str)
    (hc1 : ∀ b ∈ c1, b ≠ 32 ∧ b ≠ 45) (hu1 : ∀ b ∈ u1, b ≠ 32 ∧ b ≠ 45)
    (hc2 : ∀ b ∈ c2, b ≠ 32 ∧ b ≠ 45) (hu2 : ∀ b ∈ u2, b ≠ 32 ∧ b ≠ 45)
    (hc : c1.length = c2.length) (hc11 : 11 ≤ c1.length)
    (hu : u1.length = u2.length) (hu24 : 24 ≤ u1.length)
    (h48 : c1.length + u1.length = 48) :
    (chaos u1 c1 = chaos u2 c2 → u1 = u2 ∧ c1 = c2) ∧
    (u1 ≠ u2 ∨ c1 ≠ c2 → chaos u1 c1 ≠ chaos u2 c2) := by
  have key : chaos u1 c1 = chaos u2 c2 → u1 = u2 ∧ c1 = c2 := by
    intro h
    have r1 := removeAll_of_not_mem 32 c1 (fun b hb => (hc1 b hb).1)
    have r2 := removeAll_of_not_mem 45 u1 (fun b hb => (hu1 b hb).2)
    have r3 := removeAll_of_not_mem 32 c2 (fun b hb => (hc2 b hb).1)
    have r4 := removeAll_of_not_mem 45 u2 (fun b hb => (hu2 b hb).2)
    have n1 := length_chaosConcat u1 c1 (by rw [r1]; omega) (by rw [r2]; omega)
      (by rw [r1, r2]; omega)
    have n2 := length_chaosConcat u2 c2 (by rw [r3]; omega) (by rw [r4]; omega)
      (by rw [r3, r4]; omega)
    rw [r1, r2] at n1
    rw [r3, r4] at n2
    rw [chaos_of_in_range u1 c1 (by rw [r1]; omega) (by rw [r2]; omega) (by rw [r1, r2]; omega),
      chaos_of_in_range u2 c2 (by rw [r3]; omega) (by rw [r4]; omega) (by rw [r3, r4]; omega),
      if_pos (by omega), if_pos (by omega)] at h
    have hcat : chaosConcat u1 c1 = chaosConcat u2 c2 := by simpa using h
    have l1 := length_chaosBuffer u1 c1 (by rw [r1]; omega) (by rw [r2]; omega)
    have l2 := length_chaosBuffer u2 c2 (by rw [r3]; omega) (by rw [r4]; omega)
    rw [r1, r2] at l1
    rw [r3, r4] at l2
    unfold chaosConcat at hcat
    simp only [List.append_assoc] at hcat
    have hB := (List.append_inj hcat (by omega)).1
    exact chaosBuffer_injective u1 c1 u2 c2 (fun b hb => (hc1 b hb).1)
      (fun b hb => (hu1 b hb).2) (fun b hb => (hc2 b hb).1) (fun b hb => (hu2 b hb).2)
      hc hc11 hu hu24 hB
  refine ⟨key, ?_⟩
  intro hne heq
  obtain ⟨e1, e2⟩ := key heq
  rcases hne with hne | hne
  · exact hne e1
  · exact hne e2

theorem chaos_injective_witness :
    ascii "54060500FFFBEBBF" ≠ ascii "54060500FFFBEBBE" ∧
    chaos (ascii "4C4C45440042351080544C04F4B44321") (ascii "54060500FFFBEBBF") ≠
      chaos (ascii "4C4C45440042351080544C04F4B44321") (ascii "54060500FFFBEBBE") :=
  ⟨by decide, (chaos_injective (ascii "4C4C45440042351080544C04F4B44321")
    (ascii "54060500FFFBEBBF") (ascii "4C4C45440042351080544C04F4B44321")
    (ascii "54060500FFFBEBBE")
    (by decide) (by decide) (by decide) (by decide) (by decide) (by decide) (by decide)
    (by decide) (by decide)).2 (Or.inr (by decide))⟩

/-! ## Theorems: the license key encoder -/

theorem b58Alphabet_length : b58Alphabet.length = 58 := by decide

theorem b58Alphabet_getElem? {d : Nat} (h : d < 58) : b58Alphabet[d]? = some (b58Sym d) := by
  unfold b58Sym
  rw [List.getD_eq_getElem?_getD, List.getElem?_eq_getElem (by rw [b58Alphabet_length]; exact h)]
  simp

theorem divModLoop_eq (x : Nat) :
    ∀ result, divModLoop x result = some (result ++ (Nat.digits 58 x).map b58Sym) := by
  induction x using Nat.strong_induction_on with
  | _ x ih =>
    intro result
    rw [divModLoop]
    split_ifs with h0
    · subst h0; simp
    · rw [b58Alphabet_length, b58Alphabet_getElem? (Nat.mod_lt _ (by norm_num))]
      simp only
      rw [ih (x / 58) (Nat.div_lt_self (Nat.pos_of_ne_zero h0) (by norm_num)),
        Nat.digits_def' (by norm_num) (Nat.pos_of_ne_zero h0)]
      simp

theorem reverseBytesLoop_spec (n : Nat) : ∀ (data : Str) (i : Nat) (j : Int),
    (j - i).toNat ≤ n → (i : Int) + j = (data.length : Int) - 1 →
    ∃ out, reverseBytesLoop data i j = some out ∧ out.length = data.length ∧
      ∀ k, k < data.length →
        out[k]? = if i ≤ k ∧ (k : Int) ≤ j then data[i + j.toNat - k]? else data[k]? := by
  induction n with
  | zero =>
    intro data i j hn hij
    rw [reverseBytesLoop]
    have : ¬ ((i : Int) < j) := by omega
    simp only [this, if_false]
    refine ⟨data, rfl, rfl, ?_⟩
    intro k hk
    split_ifs with hc
    · have : i + j.toNat - k = k := by omega
      rw [this]
    · rfl
  | succ n ih =>
    intro data i j hn hij
    rw [reverseBytesLoop]
    split_ifs with hlt
    · have hj : j.toNat < data.length := by omega
      have hi : i < data.length := by omega
      rw [List.getElem?_eq_getElem hj, List.getElem?_eq_getElem hi]
      simp only
      obtain ⟨out, hout, hlen, hget⟩ := ih ((data.set i data[j.toNat]).set j.toNat data[i]) (i + 1) (j - 1)
        (by omega) (by simp only [List.length_set]; push_cast; omega)
      refine ⟨out, hout, by simpa using hlen, ?_⟩
      intro k hk
      rw [hget k (by simpa using hk)]
      simp only [List.getElem?_set, List.length_set]
      have e1 : some data[i] = data[i]? := (List.getElem?_eq_getElem hi).symm
      have e2 : some data[j.toNat] = data[j.toNat]? := (List.getElem?_eq_getElem hj).symm
      rw [e1, e2]
      split_ifs <;> first | rfl | omega | (congr 1; omega)
    · refine ⟨data, rfl, rfl, ?_⟩
      intro k hk
      split_ifs with hc
      · have : i + j.toNat - k = k := by omega
        rw [this]
      · rfl

theorem reverseBytes_eq (data : Str) : reverseBytes data = some data.reverse := by
  unfold reverseBytes
  obtain ⟨out, hout, hlen, hget⟩ := reverseBytesLoop_spec _ data 0 ((data.length : Int) - 1)
    (le_refl _) (by simp)
  rw [hout]
  congr 1
  apply List.ext_getElem?
  intro k
  by_cases hk : k < data.length
  · rw [hget k hk, List.getElem?_reverse hk]
    have : 0 ≤ k ∧ (k : Int) ≤ (data.length : Int) - 1 := by omega
    rw [if_pos this]
    congr 1
    omega
  · rw [List.getElem?_eq_none (by omega), List.getElem?_eq_none (by simp; omega)]

theorem leadingLoop_range (n : Nat) (result : Str) :
    leadingLoop (List.range n) result = some (if n = 0 then result else 49 :: result) := by
  cases n with
  | zero => rfl
  | succ n =>
    rw [List.range_succ_eq_map]
    cases n with
    | zero => rfl
    | succ n => rw [List.range_succ_eq_map]; rfl

/-- Closed form of `base58Encode`. -/
theorem base58Encode_eq (input : Str) :
    base58Encode input =
      some ((if input = [] then [] else [49]) ++ ((Nat.digits 58 (setBytes input)).map b58Sym).reverse) := by
  unfold base58Encode
  simp only [divModLoop_eq, reverseBytes_eq, leadingLoop_range, Option.bind_eq_bind, Option.some_bind, List.nil_append]
  cases input <;> simp

theorem b58Index_b58Sym : ∀ d, d < 58 → b58Index (b58Sym d) = d := by decide

theorem b58Sym_ne_first : ∀ d, d < 58 → d ≠ 0 → b58Sym d ≠ 49 := by decide

theorem readBase58_digits (x : Nat) :
    readBase58 ((Nat.digits 58 x).map b58Sym).reverse = x := by
  have key : ∀ ds : List Nat, (∀ d ∈ ds, d < 58) →
      readBase58 (ds.map b58Sym).reverse = Nat.ofDigits 58 ds := by
    intro ds
    induction ds with
    | nil => intro _; rfl
    | cons d ds ih =>
      intro h
      have hd := h d (List.mem_cons_self _ _)
      have ih := ih (fun e he => h e (List.mem_cons_of_mem _ he))
      unfold readBase58 at ih ⊢
      rw [List.map_cons, List.reverse_cons, List.foldl_append, ih, Nat.ofDigits_cons]
      simp only [List.foldl_cons, List.foldl_nil, b58Index_b58Sym d hd]
      ring
  rw [key _ (fun d hd => Nat.digits_lt_base (by norm_num) hd), Nat.ofDigits_digits]

/-- C2. The output of `base58Encode` is the prepended leading symbol (absent
for the empty input) followed by a digit string that, read most significant
digit first in base 58 with the alphabet indices as digit values, denotes the
big-endian value of the input; the digit string is empty when the value is 0. -/
theorem base58Encode_digits_value (input : Str) :
    ∃ digits, base58Encode input = some ((if input = [] then [] else [49]) ++ digits) ∧
      readBase58 digits = setBytes input ∧ (setBytes input = 0 → digits = []) := by
  refine ⟨_, base58Encode_eq input, readBase58_digits _, ?_⟩
  intro h0
  rw [h0]
  simp

/-- C3. For a non-empty input the output of `base58Encode` begins with exactly
one symbol `1` (byte 49): its first byte is `1`, and it has length 1 or its
second byte differs from `1`, whatever the leading zero bytes of the input. -/
theorem base58Encode_one_leading_symbol (input : Str) (hne : input ≠ []) :
    ∃ out, base58Encode input = some out ∧ out[0]? = some 49 ∧
      (out.length = 1 ∨ ∃ b, out[1]? = some b ∧ b ≠ 49) := by
  refine ⟨_, base58Encode_eq input, ?_, ?_⟩
  · simp [hne]
  · simp only [hne, if_false]
    by_cases hx : setBytes input = 0
    · left; rw [hx]; simp
    · right
      have hds : Nat.digits 58 (setBytes input) ≠ [] := Nat.digits_ne_nil_iff_ne_zero.mpr hx
      have hlast := Nat.getLast_digit_ne_zero 58 hx
      have hlt := Nat.digits_lt_base (b := 58) (by norm_num) (List.getLast_mem hds)
      refine ⟨b58Sym ((Nat.digits 58 (setBytes input)).getLast hds), ?_, b58Sym_ne_first _ hlt hlast⟩
      obtain ⟨l, d, hl⟩ : ∃ l d, Nat.digits 58 (setBytes input) = l ++ [d] :=
        ⟨_, _, (List.dropLast_append_getLast hds).symm⟩
      simp only [hl, List.getLast_append_singleton]
      simp

theorem base58Encode_one_leading_symbol_witness :
    ([0, 0, 1] : Str) ≠ [] ∧ ∃ out, base58Encode [0, 0, 1] = some out ∧ out[0]? = some 49 ∧
      (out.length = 1 ∨ ∃ b, out[1]? = some b ∧ b ≠ 49) :=
  ⟨by decide, base58Encode_one_leading_symbol [0, 0, 1] (by decide)⟩

theorem sub_append_mid (a b c : Str) (lo hi : Nat) (hlo : lo = a.length)
    (hhi : hi = a.length + b.length) : sub (a ++ b ++ c) lo hi = b := by
  subst hlo hhi
  unfold sub
  rw [List.append_assoc, List.drop_left, Nat.add_sub_cancel_left, List.take_left]

/-- C4. Method `getLicenseKey` returns `base58Encode P` for the 25-byte payload
`P` with `P[0] = 0x00`, `P[1:21] = RIPEMD160(SHA256(pub))` and `P[21:25]` the
first four bytes of `SHA256(SHA256(P[0:21]))`, for any hash functions with
outputs of 32 and 20 bytes. -/
theorem getLicenseKey_payload (sha256 ripemd160 : Str → Str) (pub : Str)
    (hsha : ∀ m, (sha256 m).length = 32) (hrip : ∀ m, (ripemd160 m).length = 20) :
    ∃ P : Str, getLicenseKey sha256 ripemd160 pub = base58Encode P ∧ P.length = 25 ∧
      P[0]? = some 0x00 ∧ sub P 1 21 = ripemd160 (sha256 pub) ∧
      sub P 21 25 = (sha256 (sha256 (sub P 0 21))).take 4 := by
  have e0 : ∀ c : Str, sub ([version] ++ ripemd160 (sha256 pub) ++ c) 0 21
      = [version] ++ ripemd160 (sha256 pub) := by
    intro c
    have := sub_append_mid [] ([version] ++ ripemd160 (sha256 pub)) c 0 21 rfl (by simp [hrip])
    simpa using this
  refine ⟨[version] ++ ripemd160 (sha256 pub) ++
    (sha256 (sha256 ([version] ++ ripemd160 (sha256 pub)))).take 4, rfl, ?_, ?_, ?_, ?_⟩
  · simp [hsha, hrip]
  · simp [version]
  · exact sub_append_mid [version] _ _ 1 21 rfl (by simp [hrip])
  · rw [e0]
    have := sub_append_mid ([version] ++ ripemd160 (sha256 pub))
      ((sha256 (sha256 ([version] ++ ripemd160 (sha256 pub)))).take 4) [] 21 25
      (by simp [hrip]) (by simp [hrip, hsha])
    simpa using this

theorem getLicenseKey_payload_witness :
    (∀ m, (padHash32 m).length = 32) ∧ (∀ m, (padHash20 m).length = 20) ∧
    ∃ P : Str, getLicenseKey padHash32 padHash20 [4, 1] = base58Encode P ∧ P.length = 25 ∧
      P[0]? = some 0x00 ∧ sub P 1 21 = padHash20 (padHash32 [4, 1]) ∧
      sub P 21 25 = (padHash32 (padHash32 (sub P 0 21))).take 4 :=
  ⟨fun m => by simp [padHash32], fun m => by simp [padHash20],
    getLicenseKey_payload padHash32 padHash20 [4, 1]
      (fun m => by simp [padHash32]) (fun m => by simp [padHash20])⟩

theorem b58Sym_mem : ∀ d, d < 58 → b58Sym d ∈ b58Alphabet := by decide

theorem b58Alphabet_excludes : ∀ b ∈ b58Alphabet, b ≠ 48 ∧ b ≠ 79 ∧ b ≠ 73 ∧ b ≠ 108 := by
  decide

/-- C15. `base58Encode` cannot fail: in the division loop a non-zero `x` is
replaced by a smaller number and the remainder is an index inside the alphabet,
the loop returns for every `x`, and `base58Encode` returns for every input an
output made of alphabet symbols only, none of them `0`, `O`, `I` or `l`. -/
theorem base58Encode_total (input : Str) :
    (∀ x, (x + 1) / b58Alphabet.length < x + 1 ∧
      (x + 1) % b58Alphabet.length < b58Alphabet.length) ∧
    (∀ x result, ∃ out, divModLoop x result = some out) ∧
    ∃ out, base58Encode input = some out ∧
      ∀ b ∈ out, b ∈ b58Alphabet ∧ b ≠ 48 ∧ b ≠ 79 ∧ b ≠ 73 ∧ b ≠ 108 := by
  refine ⟨?_, fun x result => ⟨_, divModLoop_eq x result⟩, _, base58Encode_eq input, ?_⟩
  · intro x
    rw [b58Alphabet_length]
    omega
  · intro b hb
    have hmem : b ∈ b58Alphabet := by
      rcases List.mem_append.mp hb with hb | hb
      · split_ifs at hb with h
        · simp at hb
        · have : b = 49 := by simpa using hb
          subst this
          decide
      · rw [List.mem_reverse, List.mem_map] at hb
        obtain ⟨d, hd, rfl⟩ := hb
        exact b58Sym_mem d (Nat.digits_lt_base (by norm_num) hd)
    exact ⟨hmem, b58Alphabet_excludes b hmem⟩

theorem base58Encode_eq_digits (input : Str) :
    base58Encode input =
      some ((if input = [] then [] else [49]) ++ base58Digits (setBytes input)) :=
  base58Encode_eq input

theorem replicate_append_eq_singleton_append (k : Nat) (ds : Str) :
    List.replicate k (49 : UInt8) ++ ds = [49] ++ ds ↔ k = 1 := by
  constructor
  · intro h
    have := congrArg List.length h
    simp only [List.length_append, List.length_replicate, List.length_singleton] at this
    omega
  · rintro rfl
    rfl

/-- C19. For a non-empty input, `base58Encode` gives the conventional Base58
encoding exactly when the input has exactly one leading zero byte; for a
license payload, version byte `0x00` followed by the 20-byte hash and the
checksum, that is exactly when the first byte of the hash is not zero. -/
theorem base58Encode_eq_conventional_iff (input : Str) (hne : input ≠ []) :
    (base58Encode input = some (conventionalBase58 input) ↔ leadingZeros input = 1) ∧
    (∀ (hash cks : Str), input = [version] ++ hash ++ cks → hash.length = 20 →
      (base58Encode input = some (conventionalBase58 input) ↔ hash.head? ≠ some 0)) := by
  have main : base58Encode input = some (conventionalBase58 input) ↔ leadingZeros input = 1 := by
    rw [base58Encode_eq_digits, if_neg hne, conventionalBase58, Option.some_inj, eq_comm]
    exact replicate_append_eq_singleton_append _ _
  refine ⟨main, ?_⟩
  intro hash cks hin hlen
  rw [main, hin]
  cases hash with
  | nil => simp at hlen
  | cons h rest =>
    by_cases h0 : h = 0
    · subst h0
      simp [leadingZeros, version, List.takeWhile]
    · have hb : (h == 0) = false := by simpa using h0
      simp [leadingZeros, version, List.takeWhile, h0, hb]

theorem base58Encode_eq_conventional_iff_witness :
    ([0, 7, 0] : Str) ≠ [] ∧
    (base58Encode [0, 7, 0] = some (conventionalBase58 [0, 7, 0]) ↔ leadingZeros [0, 7, 0] = 1) :=
  ⟨by decide, (base58Encode_eq_conventional_iff [0, 7, 0] (by decide)).1⟩

theorem setBytes_concat (l : Str) (b : UInt8) :
    setBytes (l ++ [b]) = setBytes l * 256 + b.toNat := by
  unfold setBytes
  rw [List.foldl_append]
  rfl

theorem setBytes_injective (n : Nat) : ∀ a b : Str, a.length = n → b.length = n →
    setBytes a = setBytes b → a = b := by
  induction n with
  | zero =>
    intro a b ha hb _
    rw [List.length_eq_zero.mp ha, List.length_eq_zero.mp hb]
  | succ n ih =>
    intro a b ha hb h
    rcases List.eq_nil_or_concat a with rfl | ⟨a1, x, rfl⟩
    · simp at ha
    rcases List.eq_nil_or_concat b with rfl | ⟨b1, y, rfl⟩
    · simp at hb
    simp only [List.concat_eq_append] at ha hb h ⊢
    rw [setBytes_concat, setBytes_concat] at h
    have hx : x.toNat < 256 := x.val.isLt
    have hy : y.toNat < 256 := y.val.isLt
    have hxy : x.toNat = y.toNat := by omega
    have hab : setBytes a1 = setBytes b1 := by omega
    have e1 := ih a1 b1 (by simpa using ha) (by simpa using hb) hab
    have e2 : x = y := UInt8.ext hxy
    rw [e1, e2]

theorem map_b58Index_map_b58Sym (ds : List Nat) (h : ∀ d ∈ ds, d < 58) :
    (ds.map b58Sym).map b58Index = ds := by
  induction ds with
  | nil => rfl
  | cons d ds ih =>
    rw [List.map_cons, List.map_cons, b58Index_b58Sym d (h d (List.mem_cons_self _ _)),
      ih (fun e he => h e (List.mem_cons_of_mem _ he))]

theorem base58Digits_injective (x y : Nat) (h : base58Digits x = base58Digits y) : x = y := by
  unfold base58Digits at h
  have h1 := congrArg (List.map b58Index) (List.reverse_injective h)
  rw [map_b58Index_map_b58Sym _ (fun d hd => Nat.digits_lt_base (by norm_num) hd),
    map_b58Index_map_b58Sym _ (fun d hd => Nat.digits_lt_base (by norm_num) hd)] at h1
  exact Nat.digits_inj_iff.mp h1

/-- C20. On byte sequences of equal length `base58Encode` is injective, so
distinct sequences of one length give distinct outputs; across lengths it is
not: `[0x00, 0x01]` and `[0x01]` have the same output. -/
theorem base58Encode_injective_of_length_eq (a b : Str) (hlen : a.length = b.length) :
    (base58Encode a = base58Encode b → a = b) ∧
    (a ≠ b → base58Encode a ≠ base58Encode b) ∧
    (([0x00, 0x01] : Str) ≠ [0x01] ∧ base58Encode [0x00, 0x01] = base58Encode [0x01]) := by
  have key : base58Encode a = base58Encode b → a = b := by
    intro h
    rw [base58Encode_eq_digits, base58Encode_eq_digits, Option.some_inj] at h
    have hab : (a = []) ↔ (b = []) := by
      rw [← List.length_eq_zero, ← List.length_eq_zero, hlen]
    by_cases ha : a = []
    · rw [ha, hab.mp ha]
    · have hb : b ≠ [] := fun hb => ha (hab.mpr hb)
      rw [if_neg ha, if_neg hb] at h
      have hd := List.append_cancel_left h
      exact setBytes_injective _ a b rfl hlen.symm (base58Digits_injective _ _ hd)
  refine ⟨key, fun hne heq => hne (key heq), by decide, ?_⟩
  rw [base58Encode_eq_digits, base58Encode_eq_digits]
  rfl

theorem base58Encode_injective_of_length_eq_witness :
    ([0, 1] : Str).length = ([0, 2] : Str).length ∧ ([0, 1] : Str) ≠ [0, 2] ∧
    base58Encode [0, 1] ≠ base58Encode [0, 2] :=
  ⟨rfl, by decide, (base58Encode_injective_of_length_eq [0, 1] [0, 2] rfl).2.1 (by decide)⟩

/-! ## Theorems: the inventory parser -/

theorem mapSet_ne_nil {β : Type} (m : StrMap β) (k : Str) (v : β) : mapSet m k v ≠ [] := by
  cases m with
  | nil => simp [mapSet]
  | cons e rest =>
    obtain ⟨k0, v0⟩ := e
    unfold mapSet
    split_ifs <;> simp

theorem parseRecord_of_not_isRecordBlock (data : StrMap (StrMap Str)) (record : Str)
    (h : isRecordBlock record = false) : parseRecord data record = data := by
  unfold isRecordBlock at h
  unfold parseRecord
  simp only
  split_ifs with hlen
  · rfl
  · have h3 : 3 ≤ (splitLines record).length := by omega
    simp only [h3, decide_True, Bool.true_and] at h
    cases hm : findStringSubmatch handleRegex ((splitLines record).getD 0 []) with
    | none => rfl
    | some caps => rw [hm] at h; simp at h

theorem parseRecord_of_isRecordBlock (data : StrMap (StrMap Str)) (record : Str)
    (h : isRecordBlock record = true) : parseRecord data record ≠ [] := by
  unfold isRecordBlock at h
  simp only [Bool.and_eq_true, decide_eq_true_eq] at h
  obtain ⟨h3, hm⟩ := h
  unfold parseRecord
  simp only
  rw [if_neg (by omega)]
  cases hc : findStringSubmatch handleRegex ((splitLines record).getD 0 []) with
  | none => rw [hc] at hm; simp at hm
  | some caps => exact mapSet_ne_nil _ _ _

theorem parseRecord_ne_nil (data : StrMap (StrMap Str)) (record : Str) (h : data ≠ []) :
    parseRecord data record ≠ [] := by
  cases hr : isRecordBlock record with
  | false => rw [parseRecord_of_not_isRecordBlock _ _ hr]; exact h
  | true => exact parseRecord_of_isRecordBlock _ _ hr

theorem foldl_parseRecord_ne_nil (blocks : List Str) :
    ∀ data : StrMap (StrMap Str), blocks.foldl parseRecord data ≠ [] ↔
      (data ≠ [] ∨ ∃ b ∈ blocks, isRecordBlock b = true) := by
  induction blocks with
  | nil => intro data; simp
  | cons b bs ih =>
    intro data
    rw [List.foldl_cons, ih]
    cases hr : isRecordBlock b with
    | false =>
      rw [parseRecord_of_not_isRecordBlock _ _ hr]
      simp [hr]
    | true =>
      have := parseRecord_of_isRecordBlock data b hr
      simp [hr, this]

/-- C7. On a fresh `DMI`, `parseDmidecode` returns its error exactly when no
block of the text has at least three lines and a first line matching the header
pattern; it returns `nil` with a non-empty `Data` exactly when some block does. -/
theorem parseDmidecode_error_iff (output : Str) :
    ((parseDmidecode newDMI output).2 = some parseFailed ↔
      ¬ ∃ b ∈ splitBlocks output, 3 ≤ (splitLines b).length ∧
        (findStringSubmatch handleRegex ((splitLines b).getD 0 [])).isSome = true) ∧
    (((parseDmidecode newDMI output).2 = none ∧ (parseDmidecode newDMI output).1.Data ≠ []) ↔
      ∃ b ∈ splitBlocks output, 3 ≤ (splitLines b).length ∧
        (findStringSubmatch handleRegex ((splitLines b).getD 0 [])).isSome = true) := by
  have key := foldl_parseRecord_ne_nil (splitBlocks output) newDMI.Data
  have hnew : newDMI.Data = [] := rfl
  simp only [hnew, ne_eq, not_true_eq_false, false_or, isRecordBlock, Bool.and_eq_true,
    decide_eq_true_eq] at key
  unfold parseDmidecode
  simp only [hnew, List.length_eq_zero]
  rw [← key]
  split_ifs with h0
  · simp [h0]
  · simp [h0]

set_option maxRecDepth 100000 in
/-- C8, evaluated at a failing input: in a record with the array headers `Flags`
and `Characteristics`, the value stored under `Characteristics` starts with the
entries of the `Flags` block, because `inBlockList` is not emptied when a new
array header is met. -/
theorem parseDmidecode_array_accumulator_leaks :
    (parseDmidecode newDMI (ascii
        "Handle 0x0400, DMI type 4, 42 bytes\nProcessor Information\n\tFlags:\n\t\tFPU\n\t\tVME\n\tCharacteristics:\n\t\t64-bit capable")).1.Data =
      [(ascii "0x0400",
        [(ascii "DMIType", ascii "4"), (ascii "DMISize", ascii "42"),
         (ascii "DMIName", ascii "Processor Information"),
         (ascii "Flags", ascii "FPU\t\tVME"),
         (ascii "Characteristics", ascii "FPU\t\tVME\t\t64-bit capable")])] := by
  rfl

theorem mapGet?_mapSet_self {β : Type} (m : StrMap β) (k : Str) (v : β) :
    mapGet? (mapSet m k v) k = some v := by
  induction m with
  | nil => simp [mapSet, mapGet?]
  | cons e rest ih =>
    obtain ⟨k0, v0⟩ := e
    unfold mapSet
    split_ifs with h
    · simp [mapGet?]
    · simp [mapGet?, h, ih]

theorem mapGet?_mapSet_of_ne {β : Type} (m : StrMap β) (k k1 : Str) (v : β) (h : k ≠ k1) :
    mapGet? (mapSet m k v) k1 = mapGet? m k1 := by
  induction m with
  | nil => simp [mapSet, mapGet?, h]
  | cons e rest ih =>
    obtain ⟨k0, v0⟩ := e
    unfold mapSet
    split_ifs with h0
    · subst h0; simp [mapGet?, h]
    · by_cases h1 : k0 = k1
      · simp [mapGet?, h1]
      · simp [mapGet?, h1, ih]

theorem findSome?_range_reverse_succ {α : Type} (m : Nat) (f : Nat → Option α) :
    (List.range (m + 1)).reverse.findSome? f = (f m).orElse fun _ =>
      (List.range m).reverse.findSome? f := by
  rw [List.range_succ, List.reverse_append]
  simp only [List.reverse_cons, List.reverse_nil, List.nil_append, List.singleton_append,
    List.findSome?_cons]
  cases f m <;> rfl

theorem findStringSubmatch_of_matchHere (re : List Atom) (s : Str) (caps : List Str)
    (h : matchHere re true s = some caps) : findStringSubmatch re s = some caps := by
  unfold findStringSubmatch
  rw [List.range_succ_eq_map]
  simp only [List.findSome?_cons]
  have : matchHere re (0 == 0) (List.drop 0 s) = some caps := by simpa using h
  rw [this]

theorem takeWhile_eq_self (cls : UInt8 → Bool) (s : Str) (h : ∀ b ∈ s, cls b = true) :
    s.takeWhile cls = s := by
  induction s with
  | nil => rfl
  | cons b s ih =>
    rw [List.takeWhile_cons, h b (List.mem_cons_self _ _)]
    simp only [if_true]
    rw [ih (fun c hc => h c (List.mem_cons_of_mem _ hc))]

/-- A group `(C+)` followed by a remainder that matches the empty rest of the
text captures a whole non-empty run of the class. -/
theorem matchHere_cap_all (cls : UInt8 → Bool) (re : List Atom) (atStart : Bool) (s : Str)
    (caps : List Str) (hall : ∀ b ∈ s, cls b = true) (hne : s ≠ [])
    (h : matchHere re false [] = some caps) :
    matchHere (.cap cls :: re) atStart s = some (s :: caps) := by
  rw [matchHere, takeWhile_eq_self cls s hall]
  obtain ⟨m, hm⟩ : ∃ m, s.length = m + 1 :=
    ⟨s.length - 1, by have := List.length_pos.mpr hne; omega⟩
  rw [hm, findSome?_range_reverse_succ, ← hm]
  simp [h]

/-- A group `(C+)` in front of a run `s ++ [c]` of the class gives back the
last byte when the remainder of the pattern needs it. -/
theorem matchHere_cap_but_last (cls : UInt8 → Bool) (re : List Atom) (atStart : Bool)
    (s : Str) (c : UInt8) (caps : List Str) (hall : ∀ b ∈ s ++ [c], cls b = true) (hne : s ≠ [])
    (h1 : matchHere re false [] = none) (h2 : matchHere re false [c] = some caps) :
    matchHere (.cap cls :: re) atStart (s ++ [c]) = some (s :: caps) := by
  rw [matchHere, takeWhile_eq_self cls _ hall]
  obtain ⟨m, hm⟩ : ∃ m, s.length = m + 1 :=
    ⟨s.length - 1, by have := List.length_pos.mpr hne; omega⟩
  have hlen : (s ++ [c]).length = m + 1 + 1 := by simp [hm]
  rw [hlen, findSome?_range_reverse_succ, findSome?_range_reverse_succ]
  have e1 : List.drop (m + 1 + 1) (s ++ [c]) = [] := by
    apply List.drop_eq_nil_of_le; omega
  have e2 : List.drop (m + 1) (s ++ [c]) = [c] := by
    rw [← hm, List.drop_left]
  have e3 : List.take (m + 1) (s ++ [c]) = s := by
    rw [← hm, List.take_left]
  simp [e1, e2, e3, h1, h2]

theorem findStringSubmatch_inBlockRegex (v : Str) (hne : v ≠ []) (hnl : ∀ b ∈ v, b ≠ 10) :
    findStringSubmatch inBlockRegex (9 :: 9 :: v) = some [v] := by
  apply findStringSubmatch_of_matchHere
  have hall : ∀ b ∈ v, isDot b = true := by
    intro b hb
    simpa [isDot] using hnl b hb
  have e : matchHere inBlockRegex true (9 :: 9 :: v) = matchHere [.cap isDot, .eos] false v := rfl
  rw [e]
  exact matchHere_cap_all isDot [.eos] false v [] hall hne rfl

theorem findStringSubmatch_recordRegex2 (K : Str) (hne : K ≠ []) (hnl : ∀ b ∈ K, b ≠ 10) :
    findStringSubmatch recordRegex2 (9 :: (K ++ [58])) = some [K] := by
  apply findStringSubmatch_of_matchHere
  have hall : ∀ b ∈ K ++ [58], isDot b = true := by
    intro b hb
    rcases List.mem_append.mp hb with hb | hb
    · simpa [isDot] using hnl b hb
    · have : b = 58 := by simpa using hb
      subst this; decide
  have e : matchHere recordRegex2 true (9 :: (K ++ [58])) =
      matchHere [.cap isDot, .lit 58, .eos] false (K ++ [58]) := rfl
  rw [e]
  exact matchHere_cap_but_last isDot [.lit 58, .eos] false K 58 [] hall hne rfl rfl

theorem splitLines_ne_nil (s : Str) : splitLines s ≠ [] := by
  cases s with
  | nil => simp [splitLines]
  | cons b s =>
    unfold splitLines
    split_ifs
    · simp
    · cases splitLines s <;> simp [consHead]

theorem splitLines_no_newline (s : Str) : ∀ l ∈ splitLines s, ∀ b ∈ l, b ≠ 10 := by
  induction s with
  | nil => intro l hl; simp [splitLines] at hl; subst hl; simp
  | cons c s ih =>
    intro l hl
    unfold splitLines at hl
    split_ifs at hl with hc
    · rcases List.mem_cons.mp hl with rfl | hl
      · simp
      · exact ih l hl
    · cases hs : splitLines s with
      | nil => exact absurd hs (splitLines_ne_nil s)
      | cons l0 ls =>
        rw [hs] at hl ih
        simp only [consHead, List.mem_cons] at hl
        rcases hl with rfl | hl
        · intro b hb
          rcases List.mem_cons.mp hb with rfl | hb
          · exact hc
          · exact ih l0 (List.mem_cons_self _ _) b hb
        · exact ih l (List.mem_cons_of_mem _ hl)

/-- Outside an array block a line that is not an array header leaves the block
variables alone, and leaves the value under `K` alone unless it is a plain
field line for `K`. -/
theorem scanLine_of_not_isArrayHeader (st : LineState) (line K : Str)
    (h : isArrayHeader line = false) (hk : fieldKey? line ≠ some K) :
    (scanLine st line).inBlockElement = st.inBlockElement ∧
    (scanLine st line).inBlockList = st.inBlockList ∧
    mapGet? (scanLine st line).fields K = mapGet? st.fields K := by
  unfold scanLine
  unfold isArrayHeader at h
  unfold fieldKey? at hk
  cases h1 : findStringSubmatch recordRegex line with
  | some recordData =>
    rw [h1] at hk
    simp only [Option.map_some', ne_eq, Option.some.injEq] at hk
    exact ⟨rfl, rfl, mapGet?_mapSet_of_ne _ _ _ _ hk⟩
  | none =>
    rw [h1] at h
    cases h2 : findStringSubmatch recordRegex2 line with
    | some recordData2 => rw [h2] at h; simp at h
    | none => exact ⟨rfl, rfl, rfl⟩

theorem stepLine_of_not_inBlock (st : LineState) (line : Str) (h : st.inBlockElement = []) :
    stepLine st line = scanLine st line := by
  unfold stepLine
  rw [if_neg (by simp [h])]

/-- Lines that are not array headers, met outside an array block. -/
theorem foldl_stepLine_plain (lines : List Str) (K : Str)
    (h : ∀ l ∈ lines, isArrayHeader l = false ∧ fieldKey? l ≠ some K) :
    ∀ st : LineState, st.inBlockElement = [] →
      (lines.foldl stepLine st).inBlockElement = [] ∧
      (lines.foldl stepLine st).inBlockList = st.inBlockList ∧
      mapGet? (lines.foldl stepLine st).fields K = mapGet? st.fields K := by
  induction lines with
  | nil => intro st hst; exact ⟨hst, rfl, rfl⟩
  | cons l ls ih =>
    intro st hst
    obtain ⟨h1, h2⟩ := h l (List.mem_cons_self _ _)
    obtain ⟨e1, e2, e3⟩ := scanLine_of_not_isArrayHeader st l K h1 h2
    rw [List.foldl_cons, stepLine_of_not_inBlock st l hst]
    obtain ⟨f1, f2, f3⟩ := ih (fun x hx => h x (List.mem_cons_of_mem _ hx)) (scanLine st l)
      (by rw [e1, hst])
    exact ⟨f1, by rw [f2, e2], by rw [f3, e3]⟩

/-- The array header line `\tK:` met outside an array block. -/
theorem stepLine_arrayHeader (st : LineState) (K : Str) (hst : st.inBlockElement = [])
    (hK : K ≠ []) (hnl : ∀ b ∈ K, b ≠ 10)
    (hrec : findStringSubmatch recordRegex (9 :: (K ++ [58])) = none) :
    stepLine st (9 :: (K ++ [58])) = { st with inBlockElement := K } := by
  rw [stepLine_of_not_inBlock st _ hst]
  unfold scanLine
  rw [hrec, findStringSubmatch_recordRegex2 K hK hnl]
  rfl

/-- The lines `\t\tv` of an array block, met with a non-empty accumulator. -/
theorem foldl_stepLine_values (vals : List Str) (K : Str) (hK : K ≠ [])
    (hv : ∀ v ∈ vals, v ≠ [] ∧ ∀ b ∈ v, b ≠ 10) :
    ∀ st : LineState, st.inBlockElement = K → st.inBlockList ≠ [] →
      mapGet? st.fields K = some st.inBlockList →
      (vals.map (fun v => 9 :: 9 :: v)).foldl stepLine st =
        { fields := ((vals.map (fun v => 9 :: 9 :: v)).foldl stepLine st).fields,
          inBlockElement := K,
          inBlockList := st.inBlockList ++ (vals.map (fun v => [9, 9] ++ v)).flatten } ∧
      mapGet? ((vals.map (fun v => 9 :: 9 :: v)).foldl stepLine st).fields K =
        some (st.inBlockList ++ (vals.map (fun v => [9, 9] ++ v)).flatten) := by
  induction vals with
  | nil =>
    intro st h1 h2 h3
    simp only [List.map_nil, List.foldl_nil, List.flatten_nil, List.append_nil]
    exact ⟨by rw [← h1], h3⟩
  | cons v vs ih =>
    intro st h1 h2 h3
    obtain ⟨hvne, hvnl⟩ := hv v (List.mem_cons_self _ _)
    have hstep : stepLine st (9 :: 9 :: v) =
        { fields := mapSet st.fields K (st.inBlockList ++ [9, 9] ++ v),
          inBlockElement := K,
          inBlockList := st.inBlockList ++ [9, 9] ++ v } := by
      unfold stepLine
      rw [if_pos (by rw [h1]; exact hK), findStringSubmatch_inBlockRegex v hvne hvnl]
      have hlen : ¬ st.inBlockList.length = 0 := by
        rw [List.length_eq_zero]; exact h2
      simp only [hlen, if_false, h1]
      rfl
    have := ih (fun x hx => hv x (List.mem_cons_of_mem _ hx))
      { fields := mapSet st.fields K (st.inBlockList ++ [9, 9] ++ v),
        inBlockElement := K,
        inBlockList := st.inBlockList ++ [9, 9] ++ v } rfl (by simp)
      (mapGet?_mapSet_self _ _ _)
    simp only [List.map_cons, List.foldl_cons, hstep, List.flatten_cons]
    simp only [List.append_assoc] at this ⊢
    exact this

theorem joinTabs_cons (v : Str) (vs : List Str) :
    joinTabs (v :: vs) = v ++ (vs.map (fun w => [9, 9] ++ w)).flatten := by
  induction vs generalizing v with
  | nil => simp [joinTabs]
  | cons w ws ih =>
    have e : joinTabs (v :: w :: ws) = v ++ [9, 9] ++ joinTabs (w :: ws) := by simp [joinTabs]
    rw [e, ih w]
    simp

/-- The lines `\t\tv1`, ..., `\t\tvn` that follow an array header, met with an
empty accumulator. -/
theorem foldl_stepLine_block (vals : List Str) (K : Str) (hK : K ≠ []) (hne : vals ≠ [])
    (hv : ∀ v ∈ vals, v ≠ [] ∧ ∀ b ∈ v, b ≠ 10) (st : LineState)
    (h1 : st.inBlockElement = K) (h2 : st.inBlockList = []) :
    ((vals.map (fun v => 9 :: 9 :: v)).foldl stepLine st).inBlockElement = K ∧
    mapGet? ((vals.map (fun v => 9 :: 9 :: v)).foldl stepLine st).fields K =
      some (joinTabs vals) := by
  cases vals with
  | nil => exact absurd rfl hne
  | cons v vs =>
    obtain ⟨hvne, hvnl⟩ := hv v (List.mem_cons_self _ _)
    have hstep : stepLine st (9 :: 9 :: v) =
        { fields := mapSet st.fields K v, inBlockElement := K, inBlockList := v } := by
      unfold stepLine
      rw [if_pos (by rw [h1]; exact hK), findStringSubmatch_inBlockRegex v hvne hvnl]
      simp only [h2, List.length_nil, if_true, h1]
      rfl
    obtain ⟨e1, e2⟩ := foldl_stepLine_values vs K hK
      (fun x hx => hv x (List.mem_cons_of_mem _ hx))
      { fields := mapSet st.fields K v, inBlockElement := K, inBlockList := v } rfl hvne
      (mapGet?_mapSet_self _ _ _)
    simp only [List.map_cons, List.foldl_cons, hstep]
    refine ⟨by rw [e1], ?_⟩
    rw [e2, joinTabs_cons]

/-- The lines after an array block: the first one leaves the block, none is an
array header or a plain field line for `K`. -/
theorem foldl_stepLine_after_block (post : List Str) (K : Str)
    (h : ∀ l ∈ post, isArrayHeader l = false ∧ fieldKey? l ≠ some K)
    (h0 : ∀ l, post.head? = some l → findStringSubmatch inBlockRegex l = none)
    (st : LineState) :
    mapGet? (post.foldl stepLine st).fields K = mapGet? st.fields K := by
  cases post with
  | nil => rfl
  | cons l ls =>
    obtain ⟨h1, h2⟩ := h l (List.mem_cons_self _ _)
    have hstep : stepLine st l = scanLine { st with inBlockElement := [] } l := by
      by_cases hin : st.inBlockElement = []
      · rw [stepLine_of_not_inBlock st l hin, ← hin]
      · unfold stepLine
        rw [if_pos hin, h0 l rfl]
    obtain ⟨e1, _, e3⟩ := scanLine_of_not_isArrayHeader { st with inBlockElement := [] } l K h1 h2
    obtain ⟨_, _, f3⟩ := foldl_stepLine_plain ls K
      (fun x hx => h x (List.mem_cons_of_mem _ hx)) (stepLine st l) (by rw [hstep, e1])
    rw [List.foldl_cons, f3, hstep, e3]

/-- A block that is skipped, or stored under another handle, leaves the record
of the handle `h` alone. -/
theorem mapGet?_parseRecord_of_ne (data : StrMap (StrMap Str)) (record h : Str)
    (hne : blockHandle? record ≠ some h) :
    mapGet? (parseRecord data record) h = mapGet? data h := by
  unfold blockHandle? at hne
  unfold parseRecord
  simp only
  split_ifs with hlen
  · rfl
  · rw [if_neg hlen] at hne
    cases hm : findStringSubmatch handleRegex ((splitLines record).getD 0 []) with
    | none => rfl
    | some handleData =>
      rw [hm] at hne
      simp only [Option.map_some', ne_eq, Option.some.injEq] at hne
      exact mapGet?_mapSet_of_ne _ _ _ _ hne

theorem mapGet?_foldl_parseRecord_of_ne (blocks : List Str) (h : Str)
    (hne : ∀ b ∈ blocks, blockHandle? b ≠ some h) :
    ∀ data : StrMap (StrMap Str),
      mapGet? (blocks.foldl parseRecord data) h = mapGet? data h := by
  induction blocks with
  | nil => intro data; rfl
  | cons b bs ih =>
    intro data
    rw [List.foldl_cons, ih (fun x hx => hne x (List.mem_cons_of_mem _ hx)),
      mapGet?_parseRecord_of_ne _ _ _ (hne b (List.mem_cons_self _ _))]

theorem parseDmidecode_data (d : DMI) (output : Str) :
    (parseDmidecode d output).1.Data = (splitBlocks output).foldl parseRecord d.Data := by
  unfold parseDmidecode
  simp only
  split_ifs <;> rfl

/-- The record that `parseRecord` stores for a block with the given header
line, name line and body lines. -/
theorem parseRecord_of_lines (data : StrMap (StrMap Str)) (record hdr name : Str)
    (body handleData : List Str) (hbody : body ≠ [])
    (hlines : splitLines record = hdr :: name :: body)
    (hhdr : findStringSubmatch handleRegex hdr = some handleData) :
    parseRecord data record = mapSet data (handleData.getD 0 [])
      (body.foldl stepLine
        { fields := mapSet (mapSet (mapSet [] (ascii "DMIType") (handleData.getD 1 []))
            (ascii "DMISize") (handleData.getD 2 [])) (ascii "DMIName") name,
          inBlockElement := [], inBlockList := [] }).fields := by
  unfold parseRecord
  simp only [hlines]
  have hlen : ¬ (hdr :: name :: body).length < 3 := by
    have := List.length_pos.mpr hbody
    simp only [List.length_cons]; omega
  rw [if_neg hlen]
  have e0 : (hdr :: name :: body).getD 0 [] = hdr := rfl
  have e1 : (hdr :: name :: body).getD 1 [] = name := rfl
  have e2 : (hdr :: name :: body).drop 2 = body := rfl
  rw [e0, e1, e2, hhdr]

/-- The fields of a record whose body holds one array block for the key `K`:
the value under `K` is the join of the values of the block. -/
theorem foldl_stepLine_array_field (K : Str) (pre post vals : List Str) (fields : StrMap Str)
    (hK : K ≠ []) (hKnl : ∀ b ∈ K, b ≠ 10)
    (hrec : findStringSubmatch recordRegex (9 :: (K ++ [58])) = none)
    (hvals : vals ≠ []) (hv : ∀ v ∈ vals, v ≠ [] ∧ ∀ b ∈ v, b ≠ 10)
    (hpre : ∀ l ∈ pre, isArrayHeader l = false ∧ fieldKey? l ≠ some K)
    (hpost : ∀ l ∈ post, isArrayHeader l = false ∧ fieldKey? l ≠ some K)
    (hpost0 : ∀ l, post.head? = some l → findStringSubmatch inBlockRegex l = none) :
    mapGet? ((pre ++ (9 :: (K ++ [58])) :: (vals.map (fun v => 9 :: 9 :: v) ++ post)).foldl
      stepLine (LineState.mk fields [] [])).fields K = some (joinTabs vals) := by
  rw [List.foldl_append, List.foldl_cons, List.foldl_append]
  obtain ⟨p1, p2, _⟩ := foldl_stepLine_plain pre K hpre (LineState.mk fields [] []) rfl
  rw [stepLine_arrayHeader _ K p1 hK hKnl hrec,
    foldl_stepLine_after_block post K hpost hpost0]
  exact (foldl_stepLine_block vals K hK hvals hv _ rfl (by rw [p2])).2

/-- C9. Let the lines of a record block be a header line, a name line and a
body that holds the array header line `\tK:` (a line that is not a plain field
line), followed at once by the lines `\t\tv1`, ..., `\t\tvn` with `n ≥ 1` and
every `vi` non-empty, the next line, if any, not being of that form; let no
other body line be an array header or a plain field line with key `K`. Then the
round of `parseDmidecode` for this block stores under `K`, in the record of the
handle of the block, the values joined by two tabs,
`v1 ++ "\t\t" ++ v2 ++ ... ++ "\t\t" ++ vn`, and that is the value found after
`parseDmidecode` on any text in which no later block is stored under the same
handle. -/
theorem parseDmidecode_array_field (record hdr name K : Str)
    (pre post vals handleData : List Str)
    (hlines : splitLines record =
      hdr :: name :: (pre ++ (9 :: (K ++ [58])) :: (vals.map (fun v => 9 :: 9 :: v) ++ post)))
    (hhdr : findStringSubmatch handleRegex hdr = some handleData)
    (hK : K ≠ []) (hrec : findStringSubmatch recordRegex (9 :: (K ++ [58])) = none)
    (hvals : vals ≠ []) (hv : ∀ v ∈ vals, v ≠ [])
    (hpre : ∀ l ∈ pre, isArrayHeader l = false ∧ fieldKey? l ≠ some K)
    (hpost : ∀ l ∈ post, isArrayHeader l = false ∧ fieldKey? l ≠ some K)
    (hpost0 : ∀ l, post.head? = some l → findStringSubmatch inBlockRegex l = none) :
    (∀ data : StrMap (StrMap Str),
      (mapGet? (parseRecord data record) (handleData.getD 0 [])).bind
        (fun fields => mapGet? fields K) = some (joinTabs vals)) ∧
    (∀ (d : DMI) (output : Str) (before after : List Str),
      splitBlocks output = before ++ record :: after →
      (∀ b ∈ after, blockHandle? b ≠ some (handleData.getD 0 [])) →
      (mapGet? (parseDmidecode d output).1.Data (handleData.getD 0 [])).bind
        (fun fields => mapGet? fields K) = some (joinTabs vals)) := by
  have hnl := splitLines_no_newline record
  rw [hlines] at hnl
  have hKnl : ∀ b ∈ K, b ≠ 10 := by
    intro b hb
    apply hnl (9 :: (K ++ [58])) (by simp) b
    simp [hb]
  have hvnl : ∀ v ∈ vals, v ≠ [] ∧ ∀ b ∈ v, b ≠ 10 := by
    intro v hvm
    refine ⟨hv v hvm, ?_⟩
    intro b hb
    apply hnl (9 :: 9 :: v) _ b (by simp [hb])
    simp only [List.mem_cons, List.mem_append, List.mem_map]
    exact Or.inr (Or.inr (Or.inr (Or.inr (Or.inl ⟨v, hvm, rfl⟩))))
  have hround : ∀ data : StrMap (StrMap Str),
      (mapGet? (parseRecord data record) (handleData.getD 0 [])).bind
        (fun fields => mapGet? fields K) = some (joinTabs vals) := by
    intro data
    rw [parseRecord_of_lines _ record hdr name _ handleData (by simp) hlines hhdr,
      mapGet?_mapSet_self, Option.some_bind]
    exact foldl_stepLine_array_field K pre post vals _ hK hKnl hrec hvals hvnl hpre hpost hpost0
  refine ⟨hround, ?_⟩
  intro d output before after hsplit hafter
  rw [parseDmidecode_data, hsplit, List.foldl_append, List.foldl_cons,
    mapGet?_foldl_parseRecord_of_ne after _ hafter]
  exact hround _

set_option maxRecDepth 100000 in
/-- C9, an instance: `\tSlots:` followed by `\t\tA` and `\t\tB`, between two
plain field lines and between other blocks, gives `Slots = "A\t\tB"`. -/
theorem parseDmidecode_array_field_witness :
    (mapGet? (parseDmidecode newDMI (ascii
        "junk\n\nHandle 0x0001, DMI type 9, 17 bytes\nSystem Slot\n\tDesignation: PCI1\n\tSlots:\n\t\tA\n\t\tB\n\tBus Address: 0000:00:01.0\n\nHandle 0x0002, DMI type 1, 27 bytes\nSystem Information\n\tUUID: X")).1.Data
        (ascii "0x0001")).bind (fun fields => mapGet? fields (ascii "Slots")) =
      some (ascii "A\t\tB") :=
  (parseDmidecode_array_field
    (ascii "Handle 0x0001, DMI type 9, 17 bytes\nSystem Slot\n\tDesignation: PCI1\n\tSlots:\n\t\tA\n\t\tB\n\tBus Address: 0000:00:01.0")
    (ascii "Handle 0x0001, DMI type 9, 17 bytes") (ascii "System Slot") (ascii "Slots")
    [ascii "\tDesignation: PCI1"] [ascii "\tBus Address: 0000:00:01.0"]
    [ascii "A", ascii "B"] [ascii "0x0001", ascii "9", ascii "17"]
    (by decide) (by decide) (by decide) (by decide) (by decide) (by decide) (by decide)
    (by decide) (by decide)).2 newDMI
    (ascii "junk\n\nHandle 0x0001, DMI type 9, 17 bytes\nSystem Slot\n\tDesignation: PCI1\n\tSlots:\n\t\tA\n\t\tB\n\tBus Address: 0000:00:01.0\n\nHandle 0x0002, DMI type 1, 27 bytes\nSystem Information\n\tUUID: X")
    [ascii "junk"] [ascii "Handle 0x0002, DMI type 1, 27 bytes\nSystem Information\n\tUUID: X"]
    (by decide) (by decide)

/-- C10 fails as stated: the block `junk\n` has two lines and is skipped, yet
inserting it in front of a record block, separated by a blank line, makes the
record block start with a newline, so that it is skipped too: `Data` stays
empty and the error is returned, while the text without it parses. -/
theorem skipped_block_ending_in_newline_hides_sibling :
    (splitLines (ascii "junk\n")).length < 3 ∧
    parseDmidecode newDMI (joinBlocks [ascii "Handle 0x0001, DMI type 1, 27 bytes\nSystem Information\n\tUUID: X"]) =
      (⟨[(ascii "0x0001", [(ascii "DMIType", ascii "1"), (ascii "DMISize", ascii "27"),
          (ascii "DMIName", ascii "System Information"), (ascii "UUID", ascii "X")])],
        DMIDecodeBinary⟩, none) ∧
    parseDmidecode newDMI (joinBlocks [ascii "junk\n",
        ascii "Handle 0x0001, DMI type 1, 27 bytes\nSystem Information\n\tUUID: X"]) =
      (⟨[], DMIDecodeBinary⟩, some parseFailed) := by
  refine ⟨by decide, rfl, rfl⟩

theorem splitBlocks_of_no_blank (b : Str) (h : hasBlankLine b = false) : splitBlocks b = [b] := by
  induction b with
  | nil => rfl
  | cons x t ih =>
    cases t with
    | nil => rfl
    | cons y s =>
      simp only [hasBlankLine, Bool.or_eq_false_iff, Bool.and_eq_false_imp, beq_iff_eq] at h
      have hxy : ¬ (x = 10 ∧ y = 10) := by
        rintro ⟨rfl, rfl⟩
        simpa using h.1
      rw [splitBlocks, if_neg hxy, ih h.2]
      rfl

theorem splitBlocks_append_separator (b r : Str) (h : hasBlankLine b = false)
    (hl : b.getLast? ≠ some 10) : splitBlocks (b ++ 10 :: 10 :: r) = b :: splitBlocks r := by
  induction b with
  | nil => simp [splitBlocks]
  | cons x t ih =>
    cases t with
    | nil =>
      have hx : x ≠ 10 := by simpa using hl
      simp [splitBlocks, hx, consHead]
    | cons y s =>
      simp only [hasBlankLine, Bool.or_eq_false_iff, Bool.and_eq_false_imp, beq_iff_eq] at h
      have hxy : ¬ (x = 10 ∧ y = 10) := by
        rintro ⟨rfl, rfl⟩
        simpa using h.1
      have hl2 : (y :: s).getLast? ≠ some 10 := by
        simpa [List.getLast?_cons_cons] using hl
      have := ih h.2 hl2
      simp only [List.cons_append] at this ⊢
      rw [splitBlocks, if_neg hxy, this]
      rfl

theorem splitBlocks_joinBlocks (blocks : List Str) (hne : blocks ≠ [])
    (h : ∀ x ∈ blocks, wellDelimited x = true) : splitBlocks (joinBlocks blocks) = blocks := by
  induction blocks with
  | nil => exact absurd rfl hne
  | cons b rest ih =>
    have hb := h b (List.mem_cons_self _ _)
    simp only [wellDelimited, Bool.and_eq_true, Bool.not_eq_true', beq_eq_false_iff_ne] at hb
    cases rest with
    | nil => exact splitBlocks_of_no_blank b hb.1
    | cons c rest =>
      have ih := ih (by simp) (fun x hx => h x (List.mem_cons_of_mem _ hx))
      have hj : joinBlocks (b :: c :: rest) = b ++ 10 :: 10 :: joinBlocks (c :: rest) := by
        simp [joinBlocks]
      rw [hj]
      rw [splitBlocks_append_separator b _ hb.1 hb.2, ih]

theorem foldl_parseRecord_insert (blocks : List Str) (b : Str) (i : Nat)
    (data : StrMap (StrMap Str)) (hskip : isRecordBlock b = false) :
    (blocks.take i ++ b :: blocks.drop i).foldl parseRecord data = blocks.foldl parseRecord data := by
  rw [List.foldl_append, List.foldl_cons, parseRecord_of_not_isRecordBlock _ _ hskip,
    ← List.foldl_append, List.take_append_drop]

/-- C10, amended. When no block contains a blank line or ends with a newline,
inserting at any position a block with fewer than three lines, or with a first
line that does not match the header pattern, changes neither the resulting
`Data` nor the error result of `parseDmidecode`. -/
theorem parseDmidecode_skipped_block (d : DMI) (blocks : List Str) (b : Str) (i : Nat)
    (hblocks : ∀ x ∈ blocks, wellDelimited x = true) (hb : wellDelimited b = true)
    (hskip : (splitLines b).length < 3 ∨
      findStringSubmatch handleRegex ((splitLines b).getD 0 []) = none) :
    parseDmidecode d (joinBlocks (blocks.take i ++ b :: blocks.drop i)) =
      parseDmidecode d (joinBlocks blocks) := by
  have hskip2 : isRecordBlock b = false := by
    unfold isRecordBlock
    rcases hskip with h | h
    · simp [h]
    · rw [h]; simp
  have hall : ∀ x ∈ blocks.take i ++ b :: blocks.drop i, wellDelimited x = true := by
    intro x hx
    rcases List.mem_append.mp hx with hx | hx
    · exact hblocks x (List.mem_of_mem_take hx)
    · rcases List.mem_cons.mp hx with rfl | hx
      · exact hb
      · exact hblocks x (List.mem_of_mem_drop hx)
  have hfold : (splitBlocks (joinBlocks (blocks.take i ++ b :: blocks.drop i))).foldl parseRecord d.Data
      = (splitBlocks (joinBlocks blocks)).foldl parseRecord d.Data := by
    rw [splitBlocks_joinBlocks _ (by simp) hall, foldl_parseRecord_insert _ _ _ _ hskip2]
    cases blocks with
    | nil => rfl
    | cons c rest => rw [splitBlocks_joinBlocks _ (by simp) hblocks]
  unfold parseDmidecode
  simp only [hfold]

theorem parseDmidecode_skipped_block_witness :
    (∀ x ∈ [ascii "Handle 0x0001, DMI type 1, 27 bytes\nSystem Information\n\tUUID: X"],
      wellDelimited x = true) ∧
    wellDelimited (ascii "junk") = true ∧
    ((splitLines (ascii "junk")).length < 3 ∨
      findStringSubmatch handleRegex ((splitLines (ascii "junk")).getD 0 []) = none) ∧
    parseDmidecode newDMI (joinBlocks
        (([ascii "Handle 0x0001, DMI type 1, 27 bytes\nSystem Information\n\tUUID: X"].take 0) ++
          ascii "junk" ::
          ([ascii "Handle 0x0001, DMI type 1, 27 bytes\nSystem Information\n\tUUID: X"].drop 0))) =
      parseDmidecode newDMI (joinBlocks
        [ascii "Handle 0x0001, DMI type 1, 27 bytes\nSystem Information\n\tUUID: X"]) :=
  ⟨by decide, by decide, Or.inl (by decide),
    parseDmidecode_skipped_block newDMI _ (ascii "junk") 0 (by decide) (by decide)
      (Or.inl (by decide))⟩

/-! ## Theorems: the lookups and the machine identity -/

theorem searchLoop_eq_none (entries : List (Str × StrMap Str)) (param value : Str) :
    searchLoop entries param value = none ↔ ∀ r ∈ entries, mapIndex r.2 param ≠ value := by
  induction entries with
  | nil => simp [searchLoop]
  | cons e rest ih =>
    obtain ⟨k, v⟩ := e
    unfold searchLoop
    split_ifs with h
    · simp [h]
    · simp [h, ih]

theorem searchLoop_eq_some (entries : List (Str × StrMap Str)) (param value : Str)
    (v : StrMap Str) (h : searchLoop entries param value = some v) :
    ∃ r ∈ entries, r.2 = v ∧ mapIndex v param = value := by
  induction entries with
  | nil => simp [searchLoop] at h
  | cons e rest ih =>
    obtain ⟨k, w⟩ := e
    unfold searchLoop at h
    split_ifs at h with hw
    · have : w = v := by simpa using h
      subst this
      exact ⟨(k, w), List.mem_cons_self _ _, rfl, hw⟩
    · obtain ⟨r, hr, e1, e2⟩ := ih h
      exact ⟨r, List.mem_cons_of_mem _ hr, e1, e2⟩

/-- A search that some record matches returns a matching record of `Data`. -/
theorem genericSearchBy_of_match (d : DMI) (order : List (Str × StrMap Str))
    (param value : Str) (hperm : order.Perm d.Data)
    (h : ∃ r ∈ d.Data, mapIndex r.2 param = value) :
    ∃ r ∈ d.Data, mapIndex r.2 param = value ∧
      genericSearchBy d order param value = .ok r.2 := by
  obtain ⟨r0, hr0, hm0⟩ := h
  have hne : ¬ d.Data.length = 0 := by
    rw [List.length_eq_zero]
    intro h0
    rw [h0] at hr0
    simp at hr0
  cases hs : searchLoop order param value with
  | none =>
    exact absurd hm0 ((searchLoop_eq_none order param value).mp hs r0 (hperm.mem_iff.mpr hr0))
  | some v =>
    obtain ⟨r, hr, e1, e2⟩ := searchLoop_eq_some order param value v hs
    refine ⟨r, hperm.mem_iff.mp hr, by rw [e1]; exact e2, ?_⟩
    unfold genericSearchBy
    rw [if_neg hne, hs, e1]

/-- A search that no record matches returns an empty record. -/
theorem genericSearchBy_of_no_match (d : DMI) (order : List (Str × StrMap Str))
    (param value : Str) (hperm : order.Perm d.Data) (hne : d.Data ≠ [])
    (hall : ∀ r ∈ d.Data, mapIndex r.2 param ≠ value) :
    genericSearchBy d order param value = .ok [] := by
  unfold genericSearchBy
  rw [if_neg (by rw [List.length_eq_zero]; exact hne)]
  have := (searchLoop_eq_none order param value).mpr
    (fun r hr => hall r (hperm.mem_iff.mp hr))
  rw [this]

/-- A search that exactly one record matches returns that record. -/
theorem genericSearchBy_of_unique (d : DMI) (order : List (Str × StrMap Str))
    (param value : Str) (hperm : order.Perm d.Data) (r : Str × StrMap Str) (hr : r ∈ d.Data)
    (hm : mapIndex r.2 param = value)
    (huniq : ∀ r1 ∈ d.Data, mapIndex r1.2 param = value → r1 = r) :
    genericSearchBy d order param value = .ok r.2 := by
  obtain ⟨r1, hr1, hm1, hres⟩ := genericSearchBy_of_match d order param value hperm ⟨r, hr, hm⟩
  rw [hres, huniq r1 hr1 hm1]

/-- C11. Whatever the order in which the map is iterated, `genericSearchBy`
returns an error exactly when `Data` is empty; when `Data` is not empty and no
record `v` has `v[param] == value` it returns an empty record and no error; when
some record has, it returns such a record of `Data` and no error, the unique
one when exactly one matches. `searchByType(id)` is
`genericSearchBy("DMIType", strconv.Itoa(id))` and `searchByName(n)` is
`genericSearchBy("DMIName", n)`. -/
theorem genericSearchBy_spec (d : DMI) (order : List (Str × StrMap Str)) (param value : Str)
    (hperm : order.Perm d.Data) :
    ((∃ e, genericSearchBy d order param value = .error e) ↔ d.Data = []) ∧
    (d.Data ≠ [] → (∀ r ∈ d.Data, mapIndex r.2 param ≠ value) →
      genericSearchBy d order param value = .ok []) ∧
    ((∃ r ∈ d.Data, mapIndex r.2 param = value) →
      ∃ r ∈ d.Data, mapIndex r.2 param = value ∧
        genericSearchBy d order param value = .ok r.2) ∧
    (∀ r ∈ d.Data, mapIndex r.2 param = value →
      (∀ r1 ∈ d.Data, mapIndex r1.2 param = value → r1 = r) →
      genericSearchBy d order param value = .ok r.2) ∧
    (∀ id : Int, searchByType d order id =
      genericSearchBy d order (ascii "DMIType") (itoa id)) ∧
    (∀ n : Str, searchByName d order n = genericSearchBy d order (ascii "DMIName") n) := by
  refine ⟨?_, genericSearchBy_of_no_match d order param value hperm,
    genericSearchBy_of_match d order param value hperm,
    genericSearchBy_of_unique d order param value hperm, fun _ => rfl, fun _ => rfl⟩
  unfold genericSearchBy
  by_cases h0 : d.Data.length = 0
  · rw [if_pos h0]
    simp [List.length_eq_zero.mp h0]
  · rw [if_neg h0]
    have hne : d.Data ≠ [] := fun h => h0 (by rw [h]; rfl)
    cases searchLoop order param value <;> simp [hne]

theorem genericSearchBy_spec_witness :
    ([(ascii "0x0400", [(ascii "DMIType", ascii "4")]),
      (ascii "0x0001", [(ascii "DMIType", ascii "1")])] : List (Str × StrMap Str)).Perm
      (DMI.mk [(ascii "0x0001", [(ascii "DMIType", ascii "1")]),
        (ascii "0x0400", [(ascii "DMIType", ascii "4")])] DMIDecodeBinary).Data ∧
    genericSearchBy (DMI.mk [(ascii "0x0001", [(ascii "DMIType", ascii "1")]),
        (ascii "0x0400", [(ascii "DMIType", ascii "4")])] DMIDecodeBinary)
      [(ascii "0x0400", [(ascii "DMIType", ascii "4")]),
        (ascii "0x0001", [(ascii "DMIType", ascii "1")])] (ascii "DMIType") (ascii "4") =
      .ok [(ascii "DMIType", ascii "4")] :=
  ⟨List.Perm.swap _ _ _,
    (genericSearchBy_spec (DMI.mk [(ascii "0x0001", [(ascii "DMIType", ascii "1")]),
        (ascii "0x0400", [(ascii "DMIType", ascii "4")])] DMIDecodeBinary)
      [(ascii "0x0400", [(ascii "DMIType", ascii "4")]),
        (ascii "0x0001", [(ascii "DMIType", ascii "1")])] (ascii "DMIType") (ascii "4")
      (List.Perm.swap _ _ _)).2.2.2.1
      (ascii "0x0400", [(ascii "DMIType", ascii "4")]) (by decide) (by decide) (by decide)⟩

/-- When at most one record matches, the order in which `range` yields the
entries has no effect on `genericSearchBy`. -/
theorem genericSearchBy_order_irrelevant (d : DMI) (o1 o2 : List (Str × StrMap Str))
    (param value : Str) (h1 : o1.Perm d.Data) (h2 : o2.Perm d.Data)
    (huniq : ∀ r ∈ d.Data, ∀ r1 ∈ d.Data, mapIndex r.2 param = value →
      mapIndex r1.2 param = value → r1 = r) :
    genericSearchBy d o1 param value = genericSearchBy d o2 param value := by
  by_cases hex : ∃ r ∈ d.Data, mapIndex r.2 param = value
  · obtain ⟨r, hr, hm⟩ := hex
    rw [genericSearchBy_of_unique d o1 param value h1 r hr hm
        (fun r1 hr1 hm1 => huniq r hr r1 hr1 hm hm1),
      genericSearchBy_of_unique d o2 param value h2 r hr hm
        (fun r1 hr1 hm1 => huniq r hr r1 hr1 hm hm1)]
  · have hall : ∀ r ∈ d.Data, mapIndex r.2 param ≠ value :=
      fun r hr hm => hex ⟨r, hr, hm⟩
    by_cases h0 : d.Data = []
    · unfold genericSearchBy
      rw [if_pos (by rw [h0]; rfl), if_pos (by rw [h0]; rfl)]
    · rw [genericSearchBy_of_no_match d o1 param value h1 h0 hall,
        genericSearchBy_of_no_match d o2 param value h2 h0 hall]

/-- When the text has at most one record of type code 1 and at most one of type
code 4, the fingerprint does not depend on the order in which the map is
iterated. -/
theorem getMachineSN_order_irrelevant (root : Option String) (output : Str)
    (o1 o4 p1 p4 : StrMap (StrMap Str) → List (Str × StrMap Str))
    (ho1 : ∀ m, (o1 m).Perm m) (ho4 : ∀ m, (o4 m).Perm m)
    (hp1 : ∀ m, (p1 m).Perm m) (hp4 : ∀ m, (p4 m).Perm m)
    (huniq : ∀ id : Int, id = 1 ∨ id = 4 →
      ∀ r ∈ (parseDmidecode newDMI output).1.Data,
      ∀ r1 ∈ (parseDmidecode newDMI output).1.Data,
        mapIndex r.2 (ascii "DMIType") = itoa id →
        mapIndex r1.2 (ascii "DMIType") = itoa id → r1 = r) :
    getMachineSN root (.ok output) o1 o4 = getMachineSN root (.ok output) p1 p4 := by
  unfold getMachineSN
  cases root with
  | some err => rfl
  | none =>
    simp only [run]
    generalize hres : parseDmidecode newDMI output = res at huniq
    obtain ⟨dmi, err⟩ := res
    cases err with
    | some e => rfl
    | none =>
      simp only
      have e1 : searchByType dmi (o1 dmi.Data) 1 = searchByType dmi (p1 dmi.Data) 1 :=
        genericSearchBy_order_irrelevant dmi _ _ _ _ (ho1 _) (hp1 _)
          (huniq 1 (Or.inl rfl))
      have e4 : searchByType dmi (o4 dmi.Data) 4 = searchByType dmi (p4 dmi.Data) 4 :=
        genericSearchBy_order_irrelevant dmi _ _ _ _ (ho4 _) (hp4 _)
          (huniq 4 (Or.inr rfl))
      rw [e1, e4]

set_option maxRecDepth 100000 in
/-- C12, evaluated at failing inputs. On a text with two records of type code 4
whose `ID` fields differ, two runs that iterate the map in different orders
return different fingerprints; when the second record has no `ID` field (an
unpopulated socket) one run succeeds and the other fails. -/
theorem getMachineSN_depends_on_map_order :
    (∀ m : StrMap (StrMap Str), (id m).Perm m ∧ (List.reverse m).Perm m) ∧
    getMachineSN none (.ok (ascii
      "Handle 0x0001, DMI type 1, 27 bytes\nSystem Information\n\tUUID: 4C4C4544-0042-3510-8054-B4C04F4B4432\n\nHandle 0x0400, DMI type 4, 42 bytes\nProcessor Information\n\tID: 54 06 05 00 FF FB EB BF\n\nHandle 0x0401, DMI type 4, 42 bytes\nProcessor Information\n\tID: 57 06 05 00 FF FB EB BF"))
      id id =
      .ok (ascii "54060BEBBFFF500F400423514C4C4544F4B443208054B4C04C00423540604B4F4B443C4C45420805") ∧
    getMachineSN none (.ok (ascii
      "Handle 0x0001, DMI type 1, 27 bytes\nSystem Information\n\tUUID: 4C4C4544-0042-3510-8054-B4C04F4B4432\n\nHandle 0x0400, DMI type 4, 42 bytes\nProcessor Information\n\tID: 54 06 05 00 FF FB EB BF\n\nHandle 0x0401, DMI type 4, 42 bytes\nProcessor Information\n\tID: 57 06 05 00 FF FB EB BF"))
      id List.reverse =
      .ok (ascii "57060BEBBFFF500F400423514C4C4544F4B443208054B4C04C00423570604B4F4B443C4C45420805") ∧
    getMachineSN none (.ok (ascii
      "Handle 0x0001, DMI type 1, 27 bytes\nSystem Information\n\tUUID: 4C4C4544-0042-3510-8054-B4C04F4B4432\n\nHandle 0x0400, DMI type 4, 42 bytes\nProcessor Information\n\tID: 54 06 05 00 FF FB EB BF\n\nHandle 0x0401, DMI type 4, 42 bytes\nProcessor Information\n\tStatus: Unpopulated"))
      id id =
      .ok (ascii "54060BEBBFFF500F400423514C4C4544F4B443208054B4C04C00423540604B4F4B443C4C45420805") ∧
    getMachineSN none (.ok (ascii
      "Handle 0x0001, DMI type 1, 27 bytes\nSystem Information\n\tUUID: 4C4C4544-0042-3510-8054-B4C04F4B4432\n\nHandle 0x0400, DMI type 4, 42 bytes\nProcessor Information\n\tID: 54 06 05 00 FF FB EB BF\n\nHandle 0x0401, DMI type 4, 42 bytes\nProcessor Information\n\tStatus: Unpopulated"))
      id List.reverse =
      .error (.error infoFailed) :=
  ⟨fun m => ⟨List.Perm.refl m, List.reverse_perm m⟩, rfl, rfl, rfl, rfl⟩

/-- Outside an array block a line writes under the key of a plain field line,
or makes the key of an array header the active one, and nothing else. -/
theorem scanLine_frame (st : LineState) (line k : Str) (hin : st.inBlockElement ≠ k)
    (hf : fieldKey? line ≠ some k) (ha : arrayKey? line ≠ some k) :
    (scanLine st line).inBlockElement ≠ k ∧
    mapGet? (scanLine st line).fields k = mapGet? st.fields k := by
  unfold scanLine
  unfold fieldKey? at hf
  unfold arrayKey? at ha
  cases h1 : findStringSubmatch recordRegex line with
  | some recordData =>
    rw [h1] at hf
    simp only [Option.map_some', ne_eq, Option.some.injEq] at hf
    exact ⟨hin, mapGet?_mapSet_of_ne _ _ _ _ hf⟩
  | none =>
    rw [h1] at ha
    cases h2 : findStringSubmatch recordRegex2 line with
    | some recordData2 =>
      rw [h2] at ha
      simp only [Option.map_some', ne_eq, Option.some.injEq] at ha
      exact ⟨ha, rfl⟩
    | none => exact ⟨hin, rfl⟩

/-- One round of the loop over the lines writes only under the active array key,
under the key of a plain field line, and changes the active key only to that of
an array header. -/
theorem stepLine_frame (st : LineState) (line k : Str) (hk : k ≠ [])
    (hin : st.inBlockElement ≠ k)
    (hf : fieldKey? line ≠ some k) (ha : arrayKey? line ≠ some k) :
    (stepLine st line).inBlockElement ≠ k ∧
    mapGet? (stepLine st line).fields k = mapGet? st.fields k := by
  by_cases hblk : st.inBlockElement = []
  · rw [stepLine_of_not_inBlock st line hblk]
    exact scanLine_frame st line k hin hf ha
  · unfold stepLine
    rw [if_pos hblk]
    cases hm : findStringSubmatch inBlockRegex line with
    | some inBlockData => exact ⟨hin, mapGet?_mapSet_of_ne _ _ _ _ hin⟩
    | none =>
      exact scanLine_frame { st with inBlockElement := [] } line k (fun h => hk h.symm) hf ha

theorem foldl_stepLine_frame (lines : List Str) (k : Str) (hk : k ≠ [])
    (h : ∀ l ∈ lines, fieldKey? l ≠ some k ∧ arrayKey? l ≠ some k) :
    ∀ st : LineState, st.inBlockElement ≠ k →
      mapGet? (lines.foldl stepLine st).fields k = mapGet? st.fields k := by
  induction lines with
  | nil => intro st _; rfl
  | cons l ls ih =>
    intro st hin
    obtain ⟨h1, h2⟩ := h l (List.mem_cons_self _ _)
    obtain ⟨e1, e2⟩ := stepLine_frame st l k hk hin h1 h2
    rw [List.foldl_cons, ih (fun x hx => h x (List.mem_cons_of_mem _ hx)) _ e1, e2]

/-- C13, amended. For a block that `parseDmidecode` turns into a record, if no
body line is a plain field line or an array header with the key `DMIName`,
`DMIType` or `DMISize`, then the record stored by the round of the block has
`DMIName` equal to the second line and `DMIType`, `DMISize` equal to the type
code and size captured from the header line, and so has the record found after
`parseDmidecode` when the block is the last one stored under its handle. -/
theorem parseDmidecode_header_fields (record hdr name : Str) (body handleData : List Str)
    (hlines : splitLines record = hdr :: name :: body) (hbody : body ≠ [])
    (hhdr : findStringSubmatch handleRegex hdr = some handleData)
    (hfree : ∀ l ∈ body, ∀ k ∈ headerKeys, fieldKey? l ≠ some k ∧ arrayKey? l ≠ some k) :
    (∀ data : StrMap (StrMap Str), ∃ fields,
      mapGet? (parseRecord data record) (handleData.getD 0 []) = some fields ∧
      mapGet? fields (ascii "DMIName") = some name ∧
      mapGet? fields (ascii "DMIType") = some (handleData.getD 1 []) ∧
      mapGet? fields (ascii "DMISize") = some (handleData.getD 2 [])) ∧
    (∀ (d : DMI) (output : Str) (before after : List Str),
      splitBlocks output = before ++ record :: after →
      (∀ b ∈ after, blockHandle? b ≠ some (handleData.getD 0 [])) →
      ∃ fields,
        mapGet? (parseDmidecode d output).1.Data (handleData.getD 0 []) = some fields ∧
        mapGet? fields (ascii "DMIName") = some name ∧
        mapGet? fields (ascii "DMIType") = some (handleData.getD 1 []) ∧
        mapGet? fields (ascii "DMISize") = some (handleData.getD 2 [])) := by
  have hround : ∀ data : StrMap (StrMap Str), ∃ fields,
      mapGet? (parseRecord data record) (handleData.getD 0 []) = some fields ∧
      mapGet? fields (ascii "DMIName") = some name ∧
      mapGet? fields (ascii "DMIType") = some (handleData.getD 1 []) ∧
      mapGet? fields (ascii "DMISize") = some (handleData.getD 2 []) := by
    intro data
    rw [parseRecord_of_lines data record hdr name body handleData hbody hlines hhdr]
    refine ⟨_, mapGet?_mapSet_self _ _ _, ?_, ?_, ?_⟩
    · rw [foldl_stepLine_frame body (ascii "DMIName") (by decide)
        (fun l hl => hfree l hl _ (by decide)) _
        (show ([] : Str) ≠ ascii "DMIName" by decide)]
      exact mapGet?_mapSet_self _ _ _
    · rw [foldl_stepLine_frame body (ascii "DMIType") (by decide)
        (fun l hl => hfree l hl _ (by decide)) _
        (show ([] : Str) ≠ ascii "DMIType" by decide)]
      rw [mapGet?_mapSet_of_ne _ _ _ _ (by decide), mapGet?_mapSet_of_ne _ _ _ _ (by decide)]
      exact mapGet?_mapSet_self _ _ _
    · rw [foldl_stepLine_frame body (ascii "DMISize") (by decide)
        (fun l hl => hfree l hl _ (by decide)) _
        (show ([] : Str) ≠ ascii "DMISize" by decide)]
      rw [mapGet?_mapSet_of_ne _ _ _ _ (by decide)]
      exact mapGet?_mapSet_self _ _ _
  refine ⟨hround, ?_⟩
  intro d output before after hsplit hafter
  rw [parseDmidecode_data, hsplit, List.foldl_append, List.foldl_cons,
    mapGet?_foldl_parseRecord_of_ne after _ hafter]
  exact hround _

set_option maxRecDepth 100000 in
theorem parseDmidecode_header_fields_witness :
    ∃ fields,
      mapGet? (parseDmidecode newDMI (ascii
        "junk\n\nHandle 0x0400, DMI type 4, 42 bytes\nProcessor Information\n\tID: 54 06 05 00 FF FB EB BF\n\tFlags:\n\t\tFPU\n\nHandle 0x0001, DMI type 1, 27 bytes\nSystem Information\n\tUUID: X")).1.Data
        (ascii "0x0400") = some fields ∧
      mapGet? fields (ascii "DMIName") = some (ascii "Processor Information") ∧
      mapGet? fields (ascii "DMIType") = some (ascii "4") ∧
      mapGet? fields (ascii "DMISize") = some (ascii "42") :=
  (parseDmidecode_header_fields
    (ascii "Handle 0x0400, DMI type 4, 42 bytes\nProcessor Information\n\tID: 54 06 05 00 FF FB EB BF\n\tFlags:\n\t\tFPU")
    (ascii "Handle 0x0400, DMI type 4, 42 bytes") (ascii "Processor Information")
    [ascii "\tID: 54 06 05 00 FF FB EB BF", ascii "\tFlags:", ascii "\t\tFPU"]
    [ascii "0x0400", ascii "4", ascii "42"]
    (by decide) (by decide) (by decide) (by decide)).2 newDMI
    (ascii "junk\n\nHandle 0x0400, DMI type 4, 42 bytes\nProcessor Information\n\tID: 54 06 05 00 FF FB EB BF\n\tFlags:\n\t\tFPU\n\nHandle 0x0001, DMI type 1, 27 bytes\nSystem Information\n\tUUID: X")
    [ascii "junk"] [ascii "Handle 0x0001, DMI type 1, 27 bytes\nSystem Information\n\tUUID: X"]
    (by decide) (by decide)

set_option maxRecDepth 100000 in
/-- C13 fails as stated: the body lines `\tDMIName: Other` and `\tDMIType: 99`
are plain field lines, stored in the same map, and replace the name taken from
the second line, `System Information`, and the type code of the header, `1`. -/
theorem field_line_overwrites_header_fields :
    splitLines (ascii
        "Handle 0x0001, DMI type 1, 27 bytes\nSystem Information\n\tDMIName: Other\n\tDMIType: 99") =
      [ascii "Handle 0x0001, DMI type 1, 27 bytes", ascii "System Information",
        ascii "\tDMIName: Other", ascii "\tDMIType: 99"] ∧
    findStringSubmatch handleRegex (ascii "Handle 0x0001, DMI type 1, 27 bytes") =
      some [ascii "0x0001", ascii "1", ascii "27"] ∧
    (parseDmidecode newDMI (ascii
        "Handle 0x0001, DMI type 1, 27 bytes\nSystem Information\n\tDMIName: Other\n\tDMIType: 99")).1.Data =
      [(ascii "0x0001", [(ascii "DMIType", ascii "99"), (ascii "DMISize", ascii "27"),
        (ascii "DMIName", ascii "Other")])] := by
  refine ⟨by decide, by decide, rfl⟩

end GoLicense
